import Mathlib

/-!
Verification of the easy-crawler core: the content-extraction pipeline
(`src/core/crawler.py`) and the FAISS-backed vector knowledge store
(`src/storage/vector_db.py`), shallowly embedded over `List Char` strings.
-/

namespace Crawler

/-- Python's whitespace predicate (`str.isspace` / regex `\s` on `str`):
ASCII whitespace, the C1 separator block 0x1C–0x1F, and the Unicode
whitespace code points. -/
def pyIsSpace (c : Char) : Bool :=
  let n := c.toNat
  (9 ≤ n && n ≤ 13) || n = 32 || (28 ≤ n && n ≤ 31) || n = 0x85 || n = 0xA0 ||
  n = 0x1680 || (0x2000 ≤ n && n ≤ 0x200A) || n = 0x2028 || n = 0x2029 ||
  n = 0x202F || n = 0x205F || n = 0x3000

/-- Python `str.strip()`: drop whitespace from both ends. -/
def pyStrip (l : List Char) : List Char :=
  ((l.dropWhile pyIsSpace).reverse.dropWhile pyIsSpace).reverse

/-- The part of a whitespace run that follows its last newline
(used to model where a greedy `\n\s*\n` match ends). -/
def afterLastNl (ws : List Char) : List Char :=
  (ws.reverse.takeWhile (fun c => c ≠ '\n')).reverse

theorem afterLastNl_length_lt (ws : List Char) (h : '\n' ∈ ws) :
    (afterLastNl ws).length < ws.length := by
  unfold afterLastNl
  rw [List.length_reverse]
  have hmem : '\n' ∈ ws.reverse := List.mem_reverse.mpr h
  have : ws.reverse.takeWhile (fun c => c ≠ '\n') ≠ ws.reverse := by
    intro heq
    have := List.mem_takeWhile_imp (l := ws.reverse) (p := fun c => c ≠ '\n')
      (heq ▸ hmem)
    simp at this
  have hle : (ws.reverse.takeWhile (fun c => c ≠ '\n')).length ≤ ws.reverse.length :=
    (List.takeWhile_sublist _).length_le
  rcases lt_or_eq_of_le hle with hlt | hexact
  · simpa using hlt
  · exact absurd ((List.takeWhile_sublist _).eq_of_length hexact) this

/-- `re.sub(r'\n\s*\n', '\n\n', text)`: scan left to right; at a `'\n'`,
the greedy `\s*` with backtracking matches up to the last newline of the
whitespace run that follows, and the whole match is replaced by `"\n\n"`;
scanning resumes after the match. -/
def sub1 (l : List Char) : List Char :=
  match l with
  | [] => []
  | c :: rest =>
    if c = '\n' then
      let ws := rest.takeWhile pyIsSpace
      if h : '\n' ∈ ws then
        '\n' :: '\n' :: sub1 (afterLastNl ws ++ rest.dropWhile pyIsSpace)
      else
        '\n' :: sub1 rest
    else
      c :: sub1 rest
termination_by l.length
decreasing_by
  · simp only [List.length_cons]
    have h1 := afterLastNl_length_lt (rest.takeWhile pyIsSpace) h
    have h2 : (rest.takeWhile pyIsSpace).length + (rest.dropWhile pyIsSpace).length
        = rest.length := by
      rw [← List.length_append, List.takeWhile_append_dropWhile]
    simp only [List.length_append]
    omega
  · simp
  · simp

/-- Horizontal whitespace, the character class `[ \t]`. -/
def isHws (c : Char) : Bool := c = ' ' || c = '\t'

/-- `re.sub(r'[ \t]+', ' ', text)`: collapse each run of spaces/tabs to a
single space. -/
def sub2 (l : List Char) : List Char :=
  match l with
  | [] => []
  | c :: rest =>
    if isHws c then
      ' ' :: sub2 (rest.dropWhile isHws)
    else
      c :: sub2 rest
termination_by l.length
decreasing_by
  · have := (List.dropWhile_sublist (l := rest) (p := isHws)).length_le
    simp only [List.length_cons]
    omega
  · simp

/-- `UniversalWebExtractor.clean_content`: if the text is empty return `""`;
otherwise collapse blank-line runs, collapse horizontal whitespace runs and
strip the ends. -/
def clean_content (l : List Char) : List Char :=
  if l = [] then [] else pyStrip (sub2 (sub1 l))

/-! Basic whitespace facts. -/

theorem pyIsSpace_nl : pyIsSpace '\n' = true := by decide

theorem isHws_pyIsSpace {c : Char} (h : isHws c = true) : pyIsSpace c = true := by
  unfold isHws at h
  rcases Bool.or_eq_true_iff.mp h with h1 | h1 <;>
    · rw [show c = _ from by exact_mod_cast of_decide_eq_true h1]
      decide

/-! `takeWhile` / `dropWhile` append helpers. -/

theorem takeWhile_append_all {p : Char → Bool} {a b : List Char}
    (h : ∀ c ∈ a, p c = true) :
    (a ++ b).takeWhile p = a ++ b.takeWhile p := by
  rw [List.takeWhile_append, if_pos]
  rw [List.takeWhile_eq_self_iff.mpr h]

theorem takeWhile_append_stop {p : Char → Bool} {a b : List Char}
    (h : a.takeWhile p ≠ a) :
    (a ++ b).takeWhile p = a.takeWhile p := by
  rw [List.takeWhile_append, if_neg]
  intro hlen
  exact h ((List.takeWhile_sublist p).eq_of_length hlen)

theorem dropWhile_append_stop {p : Char → Bool} {a b : List Char}
    (h : a.dropWhile p ≠ []) :
    (a ++ b).dropWhile p = a.dropWhile p ++ b := by
  rw [List.dropWhile_append, if_neg]
  simpa [List.isEmpty_iff] using h

theorem dropWhile_append_all {p : Char → Bool} {a b : List Char}
    (h : ∀ c ∈ a, p c = true) :
    (a ++ b).dropWhile p = b.dropWhile p := by
  rw [List.dropWhile_append, if_pos]
  simp [List.isEmpty_iff, List.dropWhile_eq_nil_iff]
  exact fun c hc => h c hc

/-! Equation lemmas for `sub1` and `sub2`. -/

theorem sub1_nil : sub1 [] = [] := by rw [sub1]

theorem sub1_cons_match {rest : List Char}
    (h : '\n' ∈ rest.takeWhile pyIsSpace) :
    sub1 ('\n' :: rest) =
      '\n' :: '\n' ::
        sub1 (afterLastNl (rest.takeWhile pyIsSpace) ++ rest.dropWhile pyIsSpace) := by
  rw [sub1]
  simp [h]

theorem sub1_cons_nomatch {rest : List Char}
    (h : '\n' ∉ rest.takeWhile pyIsSpace) :
    sub1 ('\n' :: rest) = '\n' :: sub1 rest := by
  rw [sub1]
  simp [h]

theorem sub1_cons_other {c : Char} {rest : List Char} (h : c ≠ '\n') :
    sub1 (c :: rest) = c :: sub1 rest := by
  rw [sub1]
  simp [h]

theorem sub2_nil : sub2 [] = [] := by rw [sub2]

theorem sub2_cons_hws {c : Char} {rest : List Char} (h : isHws c = true) :
    sub2 (c :: rest) = ' ' :: sub2 (rest.dropWhile isHws) := by
  rw [sub2]
  simp [h]

theorem sub2_cons_other {c : Char} {rest : List Char} (h : isHws c = false) :
    sub2 (c :: rest) = c :: sub2 rest := by
  rw [sub2]
  simp [h]

/-- Characters of the region a `sub1` output draws from. -/
theorem mem_sub1 {l : List Char} :
    ∀ {c : Char}, c ∈ sub1 l → c ∈ l ∨ c = '\n' := by
  induction l using sub1.induct with
  | case1 => intro c h; rw [sub1_nil] at h; cases h
  | case2 rest ws hws =>
    rename_i ih
    intro c h
    rw [sub1_cons_match hws] at h
    simp only [List.mem_cons] at h
    rcases h with h | h | h
    · right; exact h
    · right; exact h
    · rcases ih h with hm | hm
      · rcases List.mem_append.mp hm with hm' | hm'
        · left
          have : c ∈ rest.takeWhile pyIsSpace := by
            have := List.mem_reverse.mpr hm'
            unfold afterLastNl at hm'
            have h1 : c ∈ (rest.takeWhile pyIsSpace).reverse.takeWhile
                (fun d => d ≠ '\n') := List.mem_reverse.mp hm'
            have h2 := (List.takeWhile_sublist
              (l := (rest.takeWhile pyIsSpace).reverse)
              (fun d => d ≠ '\n')).mem h1
            exact List.mem_reverse.mp h2
          exact List.mem_cons_of_mem _ ((List.takeWhile_sublist _).mem this)
        · exact Or.inl (List.mem_cons_of_mem _ ((List.dropWhile_sublist _).mem hm'))
      · right; exact hm
  | case3 rest ws hws =>
    rename_i ih
    intro c h
    rw [sub1_cons_nomatch hws] at h
    simp only [List.mem_cons] at h
    rcases h with h | h
    · right; exact h
    · rcases ih h with hm | hm
      · exact Or.inl (List.mem_cons_of_mem _ hm)
      · right; exact hm
  | case4 c' rest hc =>
    rename_i ih
    intro c h
    rw [sub1_cons_other hc] at h
    simp only [List.mem_cons] at h
    rcases h with h | h
    · exact Or.inl (h ▸ List.mem_cons_self _ _)
    · rcases ih h with hm | hm
      · exact Or.inl (List.mem_cons_of_mem _ hm)
      · right; exact hm

/-- Characters of a `sub2` output draw from the input or are spaces. -/
theorem mem_sub2 {l : List Char} :
    ∀ {c : Char}, c ∈ sub2 l → c ∈ l ∨ c = ' ' := by
  induction l using sub2.induct with
  | case1 => intro c h; rw [sub2_nil] at h; cases h
  | case2 c' rest hc =>
    rename_i ih
    intro c h
    rw [sub2_cons_hws hc] at h
    simp only [List.mem_cons] at h
    rcases h with h | h
    · right; exact h
    · rcases ih h with hm | hm
      · exact Or.inl (List.mem_cons_of_mem _ ((List.dropWhile_sublist _).mem hm))
      · right; exact hm
  | case3 c' rest hc =>
    rename_i ih
    intro c h
    rw [sub2_cons_other (by simpa using hc)] at h
    simp only [List.mem_cons] at h
    rcases h with h | h
    · exact Or.inl (h ▸ List.mem_cons_self _ _)
    · rcases ih h with hm | hm
      · exact Or.inl (List.mem_cons_of_mem _ hm)
      · right; exact hm

/-! Normal-form predicates for the two substitutions.  `hasBad1` finds a
position where the blank-line regex would match more than a bare `"\n\n"`;
`hasBad2` finds a tab or two adjacent horizontal whitespace characters. -/

/-- A position where `\n\s*\n` matches non-trivially: a newline whose
following whitespace run still has a newline past its first character. -/
def hasBad1 : List Char → Bool
  | [] => false
  | c :: rest =>
    ((c = '\n') && (rest.takeWhile pyIsSpace).tail.any (fun d => d = '\n')) ||
      hasBad1 rest

/-- Whether a list starts with a horizontal whitespace character. -/
def headIsHws : List Char → Bool
  | [] => false
  | d :: _ => isHws d

/-- A position where `[ \t]+` matches non-trivially: a tab anywhere, or a
horizontal whitespace character followed by another. -/
def hasBad2 : List Char → Bool
  | [] => false
  | c :: rest => ((c = '\t') || (isHws c && headIsHws rest)) || hasBad2 rest

theorem hasBad1_cons (c : Char) (rest : List Char) :
    hasBad1 (c :: rest) =
      (((c = '\n') && (rest.takeWhile pyIsSpace).tail.any (fun d => d = '\n')) ||
        hasBad1 rest) := rfl

theorem hasBad2_cons (c : Char) (rest : List Char) :
    hasBad2 (c :: rest) =
      (((c = '\t') || (isHws c && headIsHws rest)) || hasBad2 rest) := rfl

theorem dropWhile_head_not {p : Char → Bool} {l : List Char} {d : Char}
    {t : List Char} (h : l.dropWhile p = d :: t) : p d = false := by
  induction l with
  | nil => cases h
  | cons c rest ih =>
    rw [List.dropWhile_cons] at h
    by_cases hc : p c = true
    · exact ih (by rwa [if_pos hc] at h)
    · rw [if_neg hc] at h
      cases h
      simpa using hc

theorem tail_isPre {a b : List Char} (h : a <+: b) : a.tail <+: b.tail := by
  rcases h with ⟨t, rfl⟩
  cases a with
  | nil => exact List.nil_prefix
  | cons c a' => exact ⟨t, rfl⟩

/-- Prefix of the `takeWhile` of an extended list. -/
theorem takeWhile_pre_append (p : Char → Bool) (a b : List Char) :
    a.takeWhile p <+: (a ++ b).takeWhile p := by
  rw [List.takeWhile_append]
  by_cases h : (a.takeWhile p).length = a.length
  · rw [if_pos h, (List.takeWhile_sublist p).eq_of_length h]
    exact ⟨b.takeWhile p, rfl⟩
  · rw [if_neg h]

/-- `hasBad1` is inherited by appending on the right. -/
theorem hasBad1_append_right {a b : List Char} (h : hasBad1 a = true) :
    hasBad1 (a ++ b) = true := by
  induction a with
  | nil => cases h
  | cons c a' ih =>
    rw [List.cons_append, hasBad1_cons]
    rw [hasBad1_cons] at h
    rcases Bool.or_eq_true_iff.mp h with h1 | h1
    · apply Bool.or_eq_true_iff.mpr
      left
      rcases Bool.and_eq_true_iff.mp h1 with ⟨hc, hany⟩
      refine Bool.and_eq_true_iff.mpr ⟨hc, ?_⟩
      rcases List.any_eq_true.mp hany with ⟨d, hd, hdn⟩
      refine List.any_eq_true.mpr ⟨d, ?_, hdn⟩
      exact (tail_isPre (takeWhile_pre_append pyIsSpace a' b)).sublist.mem hd
    · exact Bool.or_eq_true_iff.mpr (Or.inr (ih h1))

/-- `hasBad2` is inherited by appending on the right. -/
theorem hasBad2_append_right {a b : List Char} (h : hasBad2 a = true) :
    hasBad2 (a ++ b) = true := by
  induction a with
  | nil => cases h
  | cons c a' ih =>
    rw [List.cons_append, hasBad2_cons]
    rw [hasBad2_cons] at h
    rcases Bool.or_eq_true_iff.mp h with h1 | h1
    · apply Bool.or_eq_true_iff.mpr
      left
      rcases Bool.or_eq_true_iff.mp h1 with h2 | h2
      · exact Bool.or_eq_true_iff.mpr (Or.inl h2)
      · rcases Bool.and_eq_true_iff.mp h2 with ⟨hc, hhd⟩
        refine Bool.or_eq_true_iff.mpr (Or.inr (Bool.and_eq_true_iff.mpr ⟨hc, ?_⟩))
        cases a' with
        | nil => cases hhd
        | cons d t => exact hhd
    · exact Bool.or_eq_true_iff.mpr (Or.inr (ih h1))

/-- `hasBad1` is inherited by prepending on the left. -/
theorem hasBad1_append_left {a b : List Char} (h : hasBad1 b = true) :
    hasBad1 (a ++ b) = true := by
  induction a with
  | nil => exact h
  | cons c a' ih =>
    rw [List.cons_append, hasBad1_cons]
    exact Bool.or_eq_true_iff.mpr (Or.inr ih)

/-- `hasBad2` is inherited by prepending on the left. -/
theorem hasBad2_append_left {a b : List Char} (h : hasBad2 b = true) :
    hasBad2 (a ++ b) = true := by
  induction a with
  | nil => exact h
  | cons c a' ih =>
    rw [List.cons_append, hasBad2_cons]
    exact Bool.or_eq_true_iff.mpr (Or.inr ih)

theorem hasBad1_of_suffix {a b : List Char} (h : hasBad1 (a ++ b) = false) :
    hasBad1 b = false := by
  by_contra hb
  rw [hasBad1_append_left (Bool.of_not_eq_false hb)] at h
  cases h

theorem hasBad1_of_pre {a b : List Char} (h : hasBad1 (a ++ b) = false) :
    hasBad1 a = false := by
  by_contra ha
  rw [hasBad1_append_right (Bool.of_not_eq_false ha)] at h
  cases h

theorem hasBad2_of_suffix {a b : List Char} (h : hasBad2 (a ++ b) = false) :
    hasBad2 b = false := by
  by_contra hb
  rw [hasBad2_append_left (Bool.of_not_eq_false hb)] at h
  cases h

theorem hasBad2_of_pre {a b : List Char} (h : hasBad2 (a ++ b) = false) :
    hasBad2 a = false := by
  by_contra ha
  rw [hasBad2_append_right (Bool.of_not_eq_false ha)] at h
  cases h

/-- `pyStrip l` is a prefix of `l.dropWhile pyIsSpace`. -/
theorem pyStrip_pre (l : List Char) : pyStrip l <+: l.dropWhile pyIsSpace := by
  refine ⟨(((l.dropWhile pyIsSpace).reverse.takeWhile pyIsSpace)).reverse, ?_⟩
  unfold pyStrip
  rw [← List.reverse_append, List.takeWhile_append_dropWhile, List.reverse_reverse]

theorem hasBad1_pyStrip {l : List Char} (h : hasBad1 l = false) :
    hasBad1 (pyStrip l) = false := by
  have h1 : hasBad1 (l.dropWhile pyIsSpace) = false := by
    have := List.takeWhile_append_dropWhile (p := pyIsSpace) (l := l)
    exact hasBad1_of_suffix (a := l.takeWhile pyIsSpace) (by rwa [this])
  rcases pyStrip_pre l with ⟨w, hw⟩
  exact hasBad1_of_pre (b := w) (by rwa [hw])

theorem hasBad2_pyStrip {l : List Char} (h : hasBad2 l = false) :
    hasBad2 (pyStrip l) = false := by
  have h1 : hasBad2 (l.dropWhile pyIsSpace) = false := by
    have := List.takeWhile_append_dropWhile (p := pyIsSpace) (l := l)
    exact hasBad2_of_suffix (a := l.takeWhile pyIsSpace) (by rwa [this])
  rcases pyStrip_pre l with ⟨w, hw⟩
  exact hasBad2_of_pre (b := w) (by rwa [hw])

/-! Facts about `afterLastNl` and the fixed points of `sub1`. -/

theorem mem_afterLastNl {c : Char} {ws : List Char} (h : c ∈ afterLastNl ws) :
    c ∈ ws := by
  unfold afterLastNl at h
  have h1 : c ∈ ws.reverse.takeWhile (fun d => d ≠ '\n') := List.mem_reverse.mp h
  exact List.mem_reverse.mp ((List.takeWhile_sublist _).mem h1)

theorem mem_afterLastNl_ne_nl {c : Char} {ws : List Char}
    (h : c ∈ afterLastNl ws) : c ≠ '\n' := by
  unfold afterLastNl at h
  have h1 : c ∈ ws.reverse.takeWhile (fun d => d ≠ '\n') := List.mem_reverse.mp h
  simpa using List.mem_takeWhile_imp h1

theorem afterLastNl_cons_nl {ws' : List Char} (h : '\n' ∉ ws') :
    afterLastNl ('\n' :: ws') = ws' := by
  unfold afterLastNl
  rw [List.reverse_cons, takeWhile_append_all, List.takeWhile_cons]
  · simp
  · intro c hc
    have : c ≠ '\n' := fun he => h (he ▸ List.mem_reverse.mp hc)
    simpa using this

theorem sub1_append_no_nl {a b : List Char} (h : ∀ c ∈ a, c ≠ '\n') :
    sub1 (a ++ b) = a ++ sub1 b := by
  induction a with
  | nil => rfl
  | cons c a' ih =>
    rw [List.cons_append, sub1_cons_other (h c (List.mem_cons_self _ _)),
      ih (fun d hd => h d (List.mem_cons_of_mem _ hd)), List.cons_append]

/-- The `sub1` image of a `dropWhile pyIsSpace` remainder starts with a
non-whitespace character, so its whitespace run is empty. -/
theorem takeWhile_sub1_dropWhile (rest : List Char) :
    (sub1 (rest.dropWhile pyIsSpace)).takeWhile pyIsSpace = [] := by
  cases hD : rest.dropWhile pyIsSpace with
  | nil => rw [sub1_nil]; rfl
  | cons d D' =>
    have hd : pyIsSpace d = false := dropWhile_head_not hD
    have hdn : d ≠ '\n' := by
      intro he
      rw [he, pyIsSpace_nl] at hd
      cases hd
    rw [sub1_cons_other hdn, List.takeWhile_cons, if_neg (by simp [hd])]

theorem any_nl_false_of_not_mem {l : List Char} (h : '\n' ∉ l) :
    l.any (fun d => d = '\n') = false := by
  rw [← Bool.not_eq_true, List.any_eq_true]
  rintro ⟨d, hd, hdn⟩
  exact h ((of_decide_eq_true hdn) ▸ hd)

/-- The output of `sub1` is in normal form for the blank-line regex. -/
theorem hasBad1_sub1 (l : List Char) : hasBad1 (sub1 l) = false := by
  induction l using sub1.induct with
  | case1 => rw [sub1_nil]; rfl
  | case2 rest ws hws =>
    rename_i ih
    rw [sub1_cons_match hws]
    have hAnl : ∀ c ∈ afterLastNl (rest.takeWhile pyIsSpace), c ≠ '\n' :=
      fun c hc => mem_afterLastNl_ne_nl hc
    have hA : ∀ c ∈ afterLastNl (rest.takeWhile pyIsSpace), pyIsSpace c = true :=
      fun c hc => List.mem_takeWhile_imp (mem_afterLastNl hc)
    have htw : (sub1 (afterLastNl (rest.takeWhile pyIsSpace) ++
        rest.dropWhile pyIsSpace)).takeWhile pyIsSpace
        = afterLastNl (rest.takeWhile pyIsSpace) := by
      rw [sub1_append_no_nl hAnl, takeWhile_append_all hA,
        takeWhile_sub1_dropWhile, List.append_nil]
    have hnomem : '\n' ∉ afterLastNl (rest.takeWhile pyIsSpace) :=
      fun hmem => mem_afterLastNl_ne_nl hmem rfl
    rw [hasBad1_cons, hasBad1_cons, List.takeWhile_cons, if_pos pyIsSpace_nl,
      List.tail_cons, htw, ih]
    have h1 : (afterLastNl (rest.takeWhile pyIsSpace)).any (fun d => d = '\n')
        = false := any_nl_false_of_not_mem hnomem
    have h2 : (afterLastNl (rest.takeWhile pyIsSpace)).tail.any (fun d => d = '\n')
        = false := by
      rw [← Bool.not_eq_true, List.any_eq_true]
      rintro ⟨d, hd, hdn⟩
      exact hnomem ((of_decide_eq_true hdn) ▸ (List.tail_sublist _).mem hd)
    rw [h1, h2]
    simp
  | case3 rest ws hws =>
    rename_i ih
    rw [sub1_cons_nomatch hws]
    have hwsne : ∀ c ∈ rest.takeWhile pyIsSpace, c ≠ '\n' :=
      fun c hc he => hws (he ▸ hc)
    have hsplit : sub1 rest = rest.takeWhile pyIsSpace ++
        sub1 (rest.dropWhile pyIsSpace) := by
      conv_lhs => rw [← List.takeWhile_append_dropWhile (p := pyIsSpace) (l := rest)]
      exact sub1_append_no_nl hwsne
    have htw : (sub1 rest).takeWhile pyIsSpace = rest.takeWhile pyIsSpace := by
      rw [hsplit, takeWhile_append_all (fun c hc => List.mem_takeWhile_imp hc),
        takeWhile_sub1_dropWhile, List.append_nil]
    rw [hasBad1_cons, htw, ih]
    have h2 : (rest.takeWhile pyIsSpace).tail.any (fun d => d = '\n') = false := by
      rw [← Bool.not_eq_true, List.any_eq_true]
      rintro ⟨d, hd, hdn⟩
      exact hws ((of_decide_eq_true hdn) ▸ (List.tail_sublist _).mem hd)
    rw [h2]
    simp
  | case4 c rest hc =>
    rename_i ih
    rw [sub1_cons_other hc, hasBad1_cons, ih]
    simp [hc]

/-- Lists in normal form are fixed points of `sub1`. -/
theorem sub1_fix {l : List Char} : hasBad1 l = false → sub1 l = l := by
  induction l using sub1.induct with
  | case1 => intro _; exact sub1_nil
  | case2 rest ws hws =>
    rename_i ih
    intro h
    rw [hasBad1_cons] at h
    have hany : (rest.takeWhile pyIsSpace).tail.any (fun d => d = '\n') = false := by
      rcases Bool.or_eq_false_iff.mp h with ⟨h1, _⟩
      rcases Bool.and_eq_false_iff.mp h1 with h2 | h2
      · simp at h2
      · exact h2
    have hrest : hasBad1 rest = false := (Bool.or_eq_false_iff.mp h).2
    -- the whitespace run must be exactly one newline at its head
    have hmem : '\n' ∈ rest.takeWhile pyIsSpace := hws
    obtain ⟨wtl, hws_eq, hwtl⟩ :
        ∃ wtl, rest.takeWhile pyIsSpace = '\n' :: wtl ∧ '\n' ∉ wtl := by
      cases hcase : rest.takeWhile pyIsSpace with
      | nil => rw [hcase] at hmem; cases hmem
      | cons w0 wtl =>
        rw [hcase] at hmem hany
        have hwtl : '\n' ∉ wtl := by
          intro hm
          have hatrue : wtl.any (fun d => d = '\n') = true :=
            List.any_eq_true.mpr ⟨'\n', hm, by simp⟩
          rw [List.tail_cons, hatrue] at hany
          cases hany
        rcases List.mem_cons.mp hmem with h0 | h0
        · exact ⟨wtl, by rw [← h0], hwtl⟩
        · exact absurd h0 hwtl
    obtain ⟨rtl, hrest_eq, htw_rtl⟩ :
        ∃ rtl, rest = '\n' :: rtl ∧ rtl.takeWhile pyIsSpace = wtl := by
      cases rest with
      | nil => rw [List.takeWhile_nil] at hws_eq; cases hws_eq
      | cons r0 rtl =>
        rw [List.takeWhile_cons] at hws_eq
        by_cases hp : pyIsSpace r0 = true
        · rw [if_pos hp] at hws_eq
          obtain ⟨h0, h1⟩ := List.cons.inj hws_eq
          exact ⟨rtl, by rw [h0], h1⟩
        · rw [if_neg hp] at hws_eq
          cases hws_eq
    have hAL : afterLastNl (rest.takeWhile pyIsSpace) = wtl := by
      rw [hws_eq, afterLastNl_cons_nl hwtl]
    have hDW : rest.dropWhile pyIsSpace = rtl.dropWhile pyIsSpace := by
      rw [hrest_eq, List.dropWhile_cons, if_pos pyIsSpace_nl]
    have hMeq : afterLastNl (rest.takeWhile pyIsSpace) ++ rest.dropWhile pyIsSpace
        = rtl := by
      rw [hAL, hDW, ← htw_rtl, List.takeWhile_append_dropWhile]
    have hb_rtl : hasBad1 rtl = false := by
      rw [hrest_eq, hasBad1_cons] at hrest
      exact (Bool.or_eq_false_iff.mp hrest).2
    have hbM : hasBad1 (afterLastNl (rest.takeWhile pyIsSpace) ++
        rest.dropWhile pyIsSpace) = false := by
      rw [hMeq]; exact hb_rtl
    rw [sub1_cons_match hws, hMeq]
    have hs' : sub1 rtl = rtl := by
      rw [← hMeq]
      exact ih hbM
    rw [hs', hrest_eq]
  | case3 rest ws hws =>
    rename_i ih
    intro h
    rw [hasBad1_cons] at h
    rw [sub1_cons_nomatch hws, ih (Bool.or_eq_false_iff.mp h).2]
  | case4 c rest hc =>
    rename_i ih
    intro h
    rw [hasBad1_cons] at h
    rw [sub1_cons_other hc, ih (Bool.or_eq_false_iff.mp h).2]

/-! The `sub2` side: normal forms for, and fixed points of, the horizontal
whitespace collapse. -/

theorem dropWhile_of_head_false {p : Char → Bool} {t : List Char}
    (h : headIsHws t = false → True) (h2 : ∀ x, t.head? = some x → p x = false) :
    t.dropWhile p = t := by
  cases t with
  | nil => rfl
  | cons c r =>
    rw [List.dropWhile_cons, if_neg]
    simp [h2 c rfl]

theorem sub2_append_bd {D : List Char} (hD : headIsHws D = false)
    (w : List Char) : sub2 (w ++ D) = sub2 w ++ sub2 D := by
  induction w using sub2.induct with
  | case1 => rw [List.nil_append, sub2_nil, List.nil_append]
  | case2 c rest hc =>
    rename_i ih
    rw [List.cons_append, sub2_cons_hws hc, sub2_cons_hws hc]
    have hdw : (rest ++ D).dropWhile isHws = rest.dropWhile isHws ++ D := by
      by_cases hre : rest.dropWhile isHws = []
      · rw [List.dropWhile_append, if_pos (by simp [hre]), hre, List.nil_append]
        cases D with
        | nil => rfl
        | cons d t =>
          rw [List.dropWhile_cons, if_neg (by simp [show isHws d = false from hD])]
      · exact dropWhile_append_stop hre
    rw [hdw, ih, List.cons_append]
  | case3 c rest hc =>
    rename_i ih
    rw [List.cons_append, sub2_cons_other (by simpa using hc),
      sub2_cons_other (by simpa using hc), ih, List.cons_append]

/-- The output of `sub2` has no tab and no adjacent horizontal whitespace. -/
theorem hasBad2_sub2 (l : List Char) : hasBad2 (sub2 l) = false := by
  induction l using sub2.induct with
  | case1 => rw [sub2_nil]; rfl
  | case2 c rest hc =>
    rename_i ih
    rw [sub2_cons_hws hc, hasBad2_cons, ih]
    have hhd : headIsHws (sub2 (rest.dropWhile isHws)) = false := by
      cases hD : rest.dropWhile isHws with
      | nil => rw [sub2_nil]; rfl
      | cons d t =>
        have hd : isHws d = false := dropWhile_head_not hD
        rw [sub2_cons_other hd]
        exact hd
    rw [hhd]
    simp
  | case3 c rest hc =>
    rename_i ih
    rw [sub2_cons_other (by simpa using hc), hasBad2_cons, ih]
    have hct : (c = '\t' : Bool) = false := by
      by_cases he : c = '\t'
      · rw [he] at hc
        exact absurd (by decide) hc
      · simpa using he
    rw [hct]
    simp [show isHws c = false by simpa using hc]

/-- Lists with no tab and no adjacent horizontal whitespace are fixed points
of `sub2`. -/
theorem sub2_fix {l : List Char} : hasBad2 l = false → sub2 l = l := by
  induction l using sub2.induct with
  | case1 => intro _; exact sub2_nil
  | case2 c rest hc =>
    rename_i ih
    intro h
    rw [hasBad2_cons] at h
    obtain ⟨h1, h2⟩ := Bool.or_eq_false_iff.mp h
    obtain ⟨ht, hnb⟩ := Bool.or_eq_false_iff.mp h1
    have hhd : headIsHws rest = false := by
      rcases Bool.and_eq_false_iff.mp hnb with h3 | h3
      · rw [hc] at h3; cases h3
      · exact h3
    have hdw : rest.dropWhile isHws = rest := by
      cases rest with
      | nil => rfl
      | cons d t =>
        rw [List.dropWhile_cons, if_neg (by simp [show isHws d = false from hhd])]
    have hcs : c = ' ' := by
      unfold isHws at hc
      rcases Bool.or_eq_true_iff.mp hc with h4 | h4
      · exact of_decide_eq_true h4
      · rw [of_decide_eq_true h4] at ht
        simp at ht
    have hs2 : sub2 rest = rest := by
      have hi := ih (by rw [hdw]; exact h2)
      rwa [hdw] at hi
    rw [sub2_cons_hws hc, hdw, hs2, hcs]
  | case3 c rest hc =>
    rename_i ih
    intro h
    rw [hasBad2_cons] at h
    rw [sub2_cons_other (by simpa using hc), ih (Bool.or_eq_false_iff.mp h).2]

/-- `sub2` preserves normal form for the blank-line regex. -/
theorem hasBad1_sub2 {l : List Char} (h : hasBad1 l = false) :
    hasBad1 (sub2 l) = false := by
  induction l using sub2.induct with
  | case1 => rw [sub2_nil]; exact h
  | case2 c rest hc =>
    rename_i ih
    rw [sub2_cons_hws hc]
    rw [hasBad1_cons] at h
    have h2 : hasBad1 rest = false := (Bool.or_eq_false_iff.mp h).2
    have hsuffix : hasBad1 (rest.dropWhile isHws) = false := by
      have hsplit := List.takeWhile_append_dropWhile (p := isHws) (l := rest)
      exact hasBad1_of_suffix (a := rest.takeWhile isHws) (by rwa [hsplit])
    rw [hasBad1_cons, ih hsuffix]
    simp
  | case3 c rest hc =>
    rename_i ih
    rw [sub2_cons_other (by simpa using hc)]
    rw [hasBad1_cons] at h
    obtain ⟨h1, h2⟩ := Bool.or_eq_false_iff.mp h
    rw [hasBad1_cons, ih h2]
    by_cases hcn : c = '\n'
    · subst hcn
      have hany : (rest.takeWhile pyIsSpace).tail.any (fun d => d = '\n')
          = false := by
        rcases Bool.and_eq_false_iff.mp h1 with h3 | h3
        · simp at h3
        · exact h3
      have hDhd : headIsHws (rest.dropWhile pyIsSpace) = false := by
        cases hD : rest.dropWhile pyIsSpace with
        | nil => rfl
        | cons d t =>
          have hd : pyIsSpace d = false := dropWhile_head_not hD
          show isHws d = false
          by_cases hh : isHws d = true
          · rw [isHws_pyIsSpace hh] at hd; cases hd
          · simpa using hh
      have hs2 : sub2 rest = sub2 (rest.takeWhile pyIsSpace)
          ++ sub2 (rest.dropWhile pyIsSpace) := by
        conv_lhs =>
          rw [← List.takeWhile_append_dropWhile (p := pyIsSpace) (l := rest)]
        exact sub2_append_bd hDhd _
      have hsub2w_ws : ∀ x ∈ sub2 (rest.takeWhile pyIsSpace),
          pyIsSpace x = true := by
        intro x hx
        rcases mem_sub2 hx with hm | hm
        · exact List.mem_takeWhile_imp hm
        · rw [hm]; decide
      have htwD : (sub2 (rest.dropWhile pyIsSpace)).takeWhile pyIsSpace = [] := by
        cases hD : rest.dropWhile pyIsSpace with
        | nil => rw [sub2_nil]; rfl
        | cons d t =>
          have hd : pyIsSpace d = false := dropWhile_head_not hD
          have hdh : isHws d = false := by
            by_cases hh : isHws d = true
            · rw [isHws_pyIsSpace hh] at hd; cases hd
            · simpa using hh
          rw [sub2_cons_other hdh, List.takeWhile_cons, if_neg (by simp [hd])]
      have htw : (sub2 rest).takeWhile pyIsSpace
          = sub2 (rest.takeWhile pyIsSpace) := by
        rw [hs2, takeWhile_append_all hsub2w_ws, htwD, List.append_nil]
      have hX : ((sub2 rest).takeWhile pyIsSpace).tail.any (fun d => d = '\n')
          = false := by
        rw [htw]
        cases hw : rest.takeWhile pyIsSpace with
        | nil => rw [sub2_nil]; rfl
        | cons w0 wt =>
          rw [hw, List.tail_cons] at hany
          have hnm : '\n' ∉ wt := by
            intro hm
            rw [List.any_eq_true.mpr ⟨'\n', hm, by simp⟩] at hany
            cases hany
          by_cases hw0 : w0 = '\n'
          · subst hw0
            rw [sub2_cons_other (by decide), List.tail_cons]
            rw [← Bool.not_eq_true, List.any_eq_true]
            rintro ⟨d, hd, hdn⟩
            rcases mem_sub2 hd with hm | hm
            · exact hnm ((of_decide_eq_true hdn) ▸ hm)
            · rw [hm] at hdn; simp at hdn
          · have hnw : '\n' ∉ w0 :: wt := by
              intro hm
              rcases List.mem_cons.mp hm with hm' | hm'
              · exact hw0 hm'.symm
              · exact hnm hm'
            rw [← Bool.not_eq_true, List.any_eq_true]
            rintro ⟨d, hd, hdn⟩
            have hd' : d ∈ sub2 (w0 :: wt) := (List.tail_sublist _).mem hd
            rcases mem_sub2 hd' with hm | hm
            · exact hnw ((of_decide_eq_true hdn) ▸ hm)
            · rw [hm] at hdn; simp at hdn
      rw [hX]
      simp
    · simp [hcn]

/-! `pyStrip` produces strings with non-whitespace ends and fixes them. -/

theorem head?_dropWhile_false {p : Char → Bool} {l : List Char} {x : Char}
    (h : (l.dropWhile p).head? = some x) : p x = false := by
  cases hd : l.dropWhile p with
  | nil => rw [hd] at h; cases h
  | cons d t =>
    rw [hd] at h
    cases h
    exact dropWhile_head_not hd

theorem getLast?_dropWhile_some {p : Char → Bool} {l : List Char} {x : Char}
    (h : (l.dropWhile p).getLast? = some x) : l.getLast? = some x := by
  have hsplit := List.takeWhile_append_dropWhile (p := p) (l := l)
  conv_lhs => rw [← hsplit]
  rw [List.getLast?_append, h]
  rfl

/-- Both ends of `pyStrip l` are non-whitespace. -/
theorem pyStrip_ends (l : List Char) :
    (∀ x, (pyStrip l).head? = some x → pyIsSpace x = false) ∧
      (∀ x, (pyStrip l).getLast? = some x → pyIsSpace x = false) := by
  constructor
  · intro x hx
    unfold pyStrip at hx
    rw [List.head?_reverse] at hx
    have h1 : ((l.dropWhile pyIsSpace).reverse).getLast? = some x :=
      getLast?_dropWhile_some hx
    rw [List.getLast?_reverse] at h1
    exact head?_dropWhile_false h1
  · intro x hx
    unfold pyStrip at hx
    rw [List.getLast?_reverse] at hx
    exact head?_dropWhile_false hx

theorem dropWhile_eq_self_of_head {p : Char → Bool} {t : List Char}
    (h : ∀ x, t.head? = some x → p x = false) : t.dropWhile p = t := by
  cases t with
  | nil => rfl
  | cons c r =>
    rw [List.dropWhile_cons, if_neg]
    simp [h c rfl]

theorem pyStrip_of_ends {t : List Char}
    (h1 : ∀ x, t.head? = some x → pyIsSpace x = false)
    (h2 : ∀ x, t.getLast? = some x → pyIsSpace x = false) : pyStrip t = t := by
  unfold pyStrip
  rw [dropWhile_eq_self_of_head h1]
  rw [dropWhile_eq_self_of_head (fun x hx => h2 x (by rwa [List.head?_reverse] at hx))]
  exact List.reverse_reverse t

theorem pyStrip_idem (l : List Char) : pyStrip (pyStrip l) = pyStrip l :=
  pyStrip_of_ends (pyStrip_ends l).1 (pyStrip_ends l).2

theorem sub1_idem (l : List Char) : sub1 (sub1 l) = sub1 l :=
  sub1_fix (hasBad1_sub1 l)

theorem sub2_idem (l : List Char) : sub2 (sub2 l) = sub2 l :=
  sub2_fix (hasBad2_sub2 l)

/-- C8: applying `clean_content` — collapse runs of blank lines, collapse
horizontal whitespace runs, trim the ends — twice yields the same string as
applying it once, for every string. -/
theorem C8_clean_content_idempotent (s : List Char) :
    clean_content (clean_content s) = clean_content s := by
  by_cases hs : s = []
  · rw [hs]
    rfl
  · have hcs : clean_content s = pyStrip (sub2 (sub1 s)) := by
      rw [clean_content, if_neg hs]
    rw [hcs]
    by_cases htn : pyStrip (sub2 (sub1 s)) = []
    · rw [htn]
      rfl
    · rw [clean_content, if_neg htn]
      have hb1 : hasBad1 (pyStrip (sub2 (sub1 s))) = false :=
        hasBad1_pyStrip (hasBad1_sub2 (hasBad1_sub1 s))
      have hb2 : hasBad2 (pyStrip (sub2 (sub1 s))) = false :=
        hasBad2_pyStrip (hasBad2_sub2 (sub1 s))
      rw [sub1_fix hb1, sub2_fix hb2, pyStrip_idem]

/-- Evaluation helper: a non-empty string already in normal form (no
collapsible blank-line run, no tab or double space, non-whitespace ends) is
fixed by `clean_content`. -/
theorem clean_content_of_fixed {s : List Char} (h5 : s ≠ [])
    (h1 : hasBad1 s = false) (h2 : hasBad2 s = false)
    (h3 : ∀ x, s.head? = some x → pyIsSpace x = false)
    (h4 : ∀ x, s.getLast? = some x → pyIsSpace x = false) :
    clean_content s = s := by
  rw [clean_content, if_neg h5, sub1_fix h1, sub2_fix h2, pyStrip_of_ends h3 h4]

end Crawler

namespace VectorDB

/-- A persisted metadata record, exactly the fields `FAISSPersistence.save`
builds for each stored document. -/
structure Metadata where
  title : List Char
  content : List Char
  url : List Char
  publish_time : List Char
  extraction_time : List Char
  channel : List Char
  channel_name : List Char
  module : List Char
  module_name : List Char
  summary : List Char
  keywords : List (List Char)
  key_points : List (List Char)
deriving DecidableEq, Inhabited

/-- An input document dict.  A field is `none` when the key is absent from
the dict (so `doc.get(key, default)` is `Option.getD`). -/
structure Doc where
  content : Option (List Char) := none
  title : Option (List Char) := none
  url : Option (List Char) := none
  publish_time : Option (List Char) := none
  date : Option (List Char) := none
  extraction_time : Option (List Char) := none
  channel : Option (List Char) := none
  channel_name : Option (List Char) := none
  module : Option (List Char) := none
  module_name : Option (List Char) := none
  summary : Option (List Char) := none
  keywords : Option (List (List Char)) := none
  key_points : Option (List (List Char)) := none
deriving DecidableEq, Inhabited

/-- The FAISS index paired with its metadata array: the in-memory state of
`FAISSPersistence` (embedding vectors of abstract type `V`). -/
structure Store (V : Type) where
  index : List V
  meta : List Metadata
deriving DecidableEq

/-- `FAISSPersistence._generate_embedding`: truncate the text to 512
characters and encode.  `enc` stands for the sentence-transformer (its
internal failure mode already returns a zero vector, so it is total). -/
def generate_embedding {V : Type} (enc : List Char → V) (text : List Char) : V :=
  enc (text.take 512)

/-- The metadata item `save` builds: `doc.get` defaults, content excerpt
truncated to 200 characters with an ellipsis, `publish_time` falling back to
the `date` key, `extraction_time` falling back to the current time `now`. -/
def mkMetadataItem (now : List Char) (d : Doc) : Metadata where
  title := d.title.getD []
  content :=
    if (d.content.getD []).length > 200
      then (d.content.getD []).take 200 ++ "...".data
      else d.content.getD []
  url := d.url.getD []
  publish_time := d.publish_time.getD (d.date.getD [])
  extraction_time := d.extraction_time.getD now
  channel := d.channel.getD []
  channel_name := d.channel_name.getD []
  module := d.module.getD []
  module_name := d.module_name.getD []
  summary := d.summary.getD []
  keywords := d.keywords.getD []
  key_points := d.key_points.getD []

/-- The loop of `save`: documents without a `content` key are skipped (with
a warning); for the rest an embedding and a metadata item are appended in
lock-step. -/
def collectNew {V : Type} (enc : List Char → V) (now : List Char) :
    List Doc → List V × List Metadata
  | [] => ([], [])
  | d :: ds =>
    match d.content with
    | none => collectNew enc now ds
    | some c =>
      let rest := collectNew enc now ds
      (generate_embedding enc c :: rest.1, mkMetadataItem now d :: rest.2)

/-- The status message `save` returns:
`f"成功添加 {len(new_embeddings)} 个文档到向量数据库，当前总文档数: {len(self.metadata)}"`. -/
def saveMsg (added total : Nat) : List Char :=
  "成功添加 ".data ++ (toString added).data ++
    " 个文档到向量数据库，当前总文档数: ".data ++ (toString total).data

/-- `FAISSPersistence.save` on a list of documents: collect embeddings and
metadata in lock-step, and if any were produced extend the index and the
metadata array together; return the new state and the status message. -/
def saveList {V : Type} (enc : List Char → V) (now : List Char)
    (st : Store V) (docs : List Doc) : Store V × List Char :=
  let coll := collectNew enc now docs
  let st' : Store V :=
    if coll.1.isEmpty then st
    else { index := st.index ++ coll.1, meta := st.meta ++ coll.2 }
  (st', saveMsg coll.1.length st'.meta.length)

/-- `FAISSPersistence.save`: the argument may be a single document dict or a
list of dicts; a single dict is wrapped in a singleton list first. -/
def save {V : Type} (enc : List Char → V) (now : List Char)
    (st : Store V) (data : Doc ⊕ List Doc) : Store V × List Char :=
  match data with
  | Sum.inl d => saveList enc now st [d]
  | Sum.inr ds => saveList enc now st ds

theorem collectNew_lengths {V : Type} (enc : List Char → V) (now : List Char)
    (docs : List Doc) :
    (collectNew enc now docs).1.length = (collectNew enc now docs).2.length ∧
      (collectNew enc now docs).2.length
        = docs.countP (fun d => d.content.isSome) := by
  induction docs with
  | nil => exact ⟨rfl, rfl⟩
  | cons d ds ih =>
    cases hc : d.content with
    | none =>
      simp only [collectNew, hc, List.countP_cons]
      rw [ih.1, ih.2]
      simp [hc]
    | some c =>
      simp only [collectNew, hc, List.countP_cons, List.length_cons]
      rw [ih.1, ih.2]
      simp [hc]

theorem saveList_index_meta {V : Type} (enc : List Char → V) (now : List Char)
    (st : Store V) (docs : List Doc) :
    (saveList enc now st docs).1.index
        = st.index ++ (collectNew enc now docs).1 ∧
      (saveList enc now st docs).1.meta
        = st.meta ++ (collectNew enc now docs).2 := by
  unfold saveList
  by_cases he : (collectNew enc now docs).1.isEmpty = true
  · have h1 : (collectNew enc now docs).1 = [] := by simpa [List.isEmpty_iff] using he
    have h2 : (collectNew enc now docs).2 = [] := by
      have := (collectNew_lengths enc now docs).1
      rw [h1] at this
      exact List.length_eq_zero.mp this.symm
    simp [he, h1, h2]
  · simp [he]

theorem saveList_parity {V : Type} (enc : List Char → V) (now : List Char)
    (st : Store V) (docs : List Doc) (h : st.index.length = st.meta.length) :
    (saveList enc now st docs).1.index.length
      = (saveList enc now st docs).1.meta.length := by
  obtain ⟨hi, hm⟩ := saveList_index_meta enc now st docs
  rw [hi, hm, List.length_append, List.length_append, h,
    (collectNew_lengths enc now docs).1]

/-- C2: starting from a store whose FAISS index and metadata array have
equal length, any sequence of `save` calls (each with its own payload and
wall-clock time) preserves the equality: vectors and metadata records are
appended in lock-step, never one without the other. -/
theorem C2_index_metadata_parity {V : Type} (enc : List Char → V)
    (calls : List ((Doc ⊕ List Doc) × List Char)) (st : Store V)
    (h : st.index.length = st.meta.length) :
    (calls.foldl (fun s pc => (save enc pc.2 s pc.1).1) st).index.length
      = (calls.foldl (fun s pc => (save enc pc.2 s pc.1).1) st).meta.length := by
  induction calls generalizing st with
  | nil => exact h
  | cons pc rest ih =>
    rw [List.foldl_cons]
    apply ih
    cases hp : pc.1 with
    | inl d => exact saveList_parity enc pc.2 st [d] h
    | inr ds => exact saveList_parity enc pc.2 st ds h

/-- A document with a `content` key. -/
def docWithContent : Doc :=
  { content := some "hello world".data, title := some "T".data }

/-- A document without a `content` key, only a title. -/
def docTitleOnly : Doc := { title := some "t".data }

/-- Another document with a `content` key. -/
def docSecond : Doc := { content := some "second doc".data }

/-- A concrete two-call `save` sequence: a list payload (one document of
which lacks `content`) and then a bare-dict payload. -/
def parityCalls : List ((Doc ⊕ List Doc) × List Char) :=
  [(Sum.inr [docWithContent, docTitleOnly], "2025-10-12 08:00:00".data),
   (Sum.inl docSecond, "2025-10-12 09:00:00".data)]

/-- A trivial embedding function into `Nat`. -/
def zeroEnc : List Char → Nat := fun _ => 0

/-- The empty store over `Nat` embeddings. -/
def emptyStoreNat : Store Nat := ⟨[], []⟩

/-- Concrete instantiation of the parity theorem on `parityCalls` from the
empty store. -/
theorem C2_index_metadata_parity_witness :
    emptyStoreNat.index.length = emptyStoreNat.meta.length ∧
      (parityCalls.foldl (fun s pc => (save zeroEnc pc.2 s pc.1).1)
          emptyStoreNat).index.length
        = (parityCalls.foldl (fun s pc => (save zeroEnc pc.2 s pc.1).1)
          emptyStoreNat).meta.length :=
  ⟨rfl, C2_index_metadata_parity zeroEnc parityCalls emptyStoreNat rfl⟩

/-- C5, counterexample to the claim as stated: `save` does not return the
number of records actually added; it returns a status message string that
merely embeds that number.  On `save([{title: "t"}])` the count of added
records is 0, the state is unchanged, and the returned value is the message
`"成功添加 0 个文档到向量数据库，当前总文档数: 0"`, not the numeral `0`. -/
theorem C5_counterexample :
    save zeroEnc "2025-10-12 00:00:00".data emptyStoreNat
        (Sum.inr [docTitleOnly]) = (emptyStoreNat, saveMsg 0 0) ∧
      saveMsg 0 0 ≠ (toString (0 : Nat)).data := by
  exact ⟨rfl, by decide⟩

/-- C5 as amended: `save` returns a status message string reporting the
number of records actually added (and the new total); documents lacking a
`content` field are skipped, are not counted, add no record to either the
index or the metadata array, and no exception escapes (the model is a total
function).  In particular a batch of content-less documents adds zero
records. -/
theorem C5_save_skip_and_count {V : Type} (enc : List Char → V)
    (now : List Char) (st : Store V) (docs : List Doc) :
    (saveList enc now st docs).2
        = saveMsg (docs.countP (fun d => d.content.isSome))
            (st.meta.length + docs.countP (fun d => d.content.isSome)) ∧
      (saveList enc now st docs).1.meta.length
        = st.meta.length + docs.countP (fun d => d.content.isSome) ∧
      (saveList enc now st docs).1.index.length
        = st.index.length + docs.countP (fun d => d.content.isSome) := by
  obtain ⟨hi, hm⟩ := saveList_index_meta enc now st docs
  obtain ⟨hl, hcount⟩ := collectNew_lengths enc now docs
  refine ⟨?_, ?_, ?_⟩
  · have hmsg : (saveList enc now st docs).2
        = saveMsg (collectNew enc now docs).1.length
            (saveList enc now st docs).1.meta.length := rfl
    rw [hmsg, hm, List.length_append, hl, hcount]
  · rw [hm, List.length_append, hcount]
  · rw [hi, List.length_append, hl, hcount]

/-- C10: passing a single document dict to `save` has exactly the same
effect on the store state and returns the same value as passing the
singleton list containing it — `save` wraps a bare dict in a list before
processing. -/
theorem C10_save_single_dict_coercion {V : Type} (enc : List Char → V)
    (now : List Char) (st : Store V) (d : Doc) :
    save enc now st (Sum.inl d) = save enc now st (Sum.inr [d]) := rfl

/-! Date handling.  `vector_db.py` parses dates with
`datetime.strptime(doc_date.split(' ')[0], fmt)` over a fixed list of
formats.  The model matches CPython `_strptime`: each directive is a regex
alternation tried in order with backtracking, the whole string must be
consumed, and the resulting `datetime(...)` constructor validates the
calendar day. -/

/-- A parsed `datetime` value. -/
structure DateTime where
  year : Nat
  month : Nat
  day : Nat
  hour : Nat
  minute : Nat
  second : Nat
deriving DecidableEq, Inhabited

/-- Python `datetime` comparison: lexicographic on the fields. -/
def dtLt (a b : DateTime) : Bool :=
  if a.year ≠ b.year then a.year < b.year
  else if a.month ≠ b.month then a.month < b.month
  else if a.day ≠ b.day then a.day < b.day
  else if a.hour ≠ b.hour then a.hour < b.hour
  else if a.minute ≠ b.minute then a.minute < b.minute
  else a.second < b.second

def dtLe (a b : DateTime) : Bool := dtLt a b || a = b

/-- `end_datetime.replace(hour=23, minute=59, second=59)`. -/
def endOfDay (dt : DateTime) : DateTime :=
  { dt with hour := 23, minute := 59, second := 59 }

def digVal (c : Char) : Nat := c.toNat - 48

/-- A `strptime` directive: a field to parse or a literal character. -/
inductive Dir where
  | year
  | month
  | day
  | hour
  | minute
  | second
  | lit (c : Char)
deriving DecidableEq

/-- The candidate matches of a directive on a string, in the order CPython's
`_strptime` regex alternations try them (two-digit forms before one-digit
forms), each with the remaining input. -/
def candidates : Dir → List Char → List (Nat × List Char)
  | .year, a :: b :: c :: d :: r =>
    -- %Y is \d\d\d\d: exactly four digits
    if a.isDigit && b.isDigit && c.isDigit && d.isDigit then
      [((((digVal a) * 10 + digVal b) * 10 + digVal c) * 10 + digVal d, r)]
    else []
  | .year, _ => []
  | .month, s =>
    -- %m is (1[0-2]|0[1-9]|[1-9])
    (match s with
     | a :: b :: r =>
       (if a = '1' && ('0' ≤ b && b ≤ '2') then [(10 + digVal b, r)] else []) ++
       (if a = '0' && ('1' ≤ b && b ≤ '9') then [(digVal b, r)] else [])
     | _ => []) ++
    (match s with
     | a :: r => if '1' ≤ a && a ≤ '9' then [(digVal a, r)] else []
     | _ => [])
  | .day, s =>
    -- %d is (3[01]|[12]\d|0[1-9]|[1-9])
    (match s with
     | a :: b :: r =>
       (if a = '3' && ('0' ≤ b && b ≤ '1') then [(30 + digVal b, r)] else []) ++
       (if ('1' ≤ a && a ≤ '2') && b.isDigit then
         [(digVal a * 10 + digVal b, r)] else []) ++
       (if a = '0' && ('1' ≤ b && b ≤ '9') then [(digVal b, r)] else [])
     | _ => []) ++
    (match s with
     | a :: r => if '1' ≤ a && a ≤ '9' then [(digVal a, r)] else []
     | _ => [])
  | .hour, s =>
    -- %H is (2[0-3]|[0-1]\d|\d)
    (match s with
     | a :: b :: r =>
       (if a = '2' && ('0' ≤ b && b ≤ '3') then [(20 + digVal b, r)] else []) ++
       (if ('0' ≤ a && a ≤ '1') && b.isDigit then
         [(digVal a * 10 + digVal b, r)] else [])
     | _ => []) ++
    (match s with
     | a :: r => if a.isDigit then [(digVal a, r)] else []
     | _ => [])
  | .minute, s =>
    -- %M is ([0-5]\d|\d)
    (match s with
     | a :: b :: r =>
       if ('0' ≤ a && a ≤ '5') && b.isDigit then
         [(digVal a * 10 + digVal b, r)] else []
     | _ => []) ++
    (match s with
     | a :: r => if a.isDigit then [(digVal a, r)] else []
     | _ => [])
  | .second, s =>
    -- %S is ([0-5]\d|\d)
    (match s with
     | a :: b :: r =>
       if ('0' ≤ a && a ≤ '5') && b.isDigit then
         [(digVal a * 10 + digVal b, r)] else []
     | _ => []) ++
    (match s with
     | a :: r => if a.isDigit then [(digVal a, r)] else []
     | _ => [])
  | .lit c, a :: r => if a = c then [(0, r)] else []
  | .lit _, [] => []

/-- Record a directive's parsed value in the partially built `datetime`. -/
def applyDir (dt : DateTime) : Dir → Nat → DateTime
  | .year, v => { dt with year := v }
  | .month, v => { dt with month := v }
  | .day, v => { dt with day := v }
  | .hour, v => { dt with hour := v }
  | .minute, v => { dt with minute := v }
  | .second, v => { dt with second := v }
  | .lit _, _ => dt

/-- Run a format over a string with backtracking; the whole string must be
consumed (`strptime` raises "unconverted data remains" otherwise). -/
def runFmt : List Dir → DateTime → List Char → Option DateTime
  | [], dt, s => if s.isEmpty then some dt else none
  | d :: ds, dt, s =>
    (candidates d s).findSome? (fun vr => runFmt ds (applyDir dt d vr.1) vr.2)

def isLeap (y : Nat) : Bool := y % 4 = 0 && (y % 100 ≠ 0 || y % 400 = 0)

def daysInMonth (y m : Nat) : Nat :=
  if m = 2 then (if isLeap y then 29 else 28)
  else if m = 4 || m = 6 || m = 9 || m = 11 then 30
  else 31

/-- The validation the `datetime(...)` constructor performs. -/
def validDate (dt : DateTime) : Bool :=
  1 ≤ dt.year && dt.year ≤ 9999 && 1 ≤ dt.month && dt.month ≤ 12 &&
    1 ≤ dt.day && dt.day ≤ daysInMonth dt.year dt.month &&
    dt.hour ≤ 23 && dt.minute ≤ 59 && dt.second ≤ 59

/-- `datetime.strptime(s, fmt)`, `none` when a `ValueError` is raised.
Fields the format does not mention keep `strptime`'s defaults
(1900-01-01 00:00:00). -/
def strptime (fmt : List Dir) (s : List Char) : Option DateTime :=
  match runFmt fmt ⟨1900, 1, 1, 0, 0, 0⟩ s with
  | some dt => if validDate dt then some dt else none
  | none => none

/-- `'%Y-%m-%d %H:%M:%S'`. -/
def fmtYmdHms : List Dir :=
  [.year, .lit '-', .month, .lit '-', .day, .lit ' ',
   .hour, .lit ':', .minute, .lit ':', .second]

/-- `'%Y-%m-%d'`. -/
def fmtYmdDash : List Dir := [.year, .lit '-', .month, .lit '-', .day]

/-- `'%Y/%m/%d'`. -/
def fmtYmdSlash : List Dir := [.year, .lit '/', .month, .lit '/', .day]

/-- `'%Y年%m月%d日'`. -/
def fmtYmdCJK : List Dir :=
  [.year, .lit '年', .month, .lit '月', .day, .lit '日']

/-- Try formats in order; the first successful parse wins. -/
def tryFormats (fmts : List (List Dir)) (s : List Char) : Option DateTime :=
  match fmts with
  | [] => none
  | f :: fs =>
    match strptime f s with
    | some dt => some dt
    | none => tryFormats fs s

/-- The format list used by `search` and `get_by_date_range`. -/
def searchFmts : List (List Dir) := [fmtYmdHms, fmtYmdDash, fmtYmdSlash, fmtYmdCJK]

/-- The format list used by `get_statistics`. -/
def statsFmts : List (List Dir) := [fmtYmdDash, fmtYmdSlash, fmtYmdCJK]

/-- `s.split(' ')[0]`: the part before the first space. -/
def datePart (s : List Char) : List Char := s.takeWhile (fun c => c ≠ ' ')

/-- `metadata.get('publish_time') or metadata.get('extraction_time')`:
the publish time, falling back to the extraction time when it is falsy. -/
def resolvedDate (m : Metadata) : List Char :=
  if m.publish_time ≠ [] then m.publish_time else m.extraction_time

/-! `get_by_date_range`: a metadata scan with a date filter, sorted by the
raw resolved-date string descending and capped at `top_k`. -/

/-- Python string comparison: lexicographic by code point. -/
def lexLe : List Char → List Char → Bool
  | [], _ => true
  | _ :: _, [] => false
  | a :: as, b :: bs => if a = b then lexLe as bs else decide (a < b)

/-- `x.get('publish_time') or x.get('extraction_time')` as a sort key,
descending. -/
def keyGe (a b : Metadata) : Bool := lexLe (resolvedDate b) (resolvedDate a)

/-- Stable insertion into a descending-sorted list: an element moves past
another only when its key is strictly larger, so Python's stable
`sort(key=..., reverse=True)` is reproduced. -/
def insDesc (m : Metadata) : List Metadata → List Metadata
  | [] => [m]
  | x :: xs => if keyGe m x then m :: x :: xs else x :: insDesc m xs

/-- Stable descending sort by the resolved-date string. -/
def sortDesc (l : List Metadata) : List Metadata := l.foldr insDesc []

/-- The per-record filter of `get_by_date_range`: keep a record whose
resolved date is truthy and whose date part parses under one of the four
formats to a datetime within `[start, end]`. -/
def inRange (sdt edt : DateTime) (m : Metadata) : Bool :=
  let docDate := resolvedDate m
  if docDate ≠ [] then
    match tryFormats searchFmts (datePart docDate) with
    | some dd => dtLe sdt dd && dtLe dd edt
    | none => false
  else false

/-- `FAISSPersistence.get_by_date_range`: empty store yields `[]`; start and
end dates are parsed as `%Y-%m-%d` (failure yields `[]`), the end bound is
moved to 23:59:59, records in range are collected, sorted descending by
their raw resolved-date string, and capped at `top_k`. -/
def get_by_date_range {V : Type} (st : Store V)
    (start_date end_date : List Char) (top_k : Nat) : List Metadata :=
  if st.meta.isEmpty then []
  else
    match strptime fmtYmdDash (datePart start_date),
        strptime fmtYmdDash (datePart end_date) with
    | some sdt, some edt0 =>
      (sortDesc (st.meta.filter (inRange sdt (endOfDay edt0)))).take top_k
    | _, _ => []

/-! The date filter inside `search`. -/

/-- Python truthiness of an optional string argument: `None` and the empty
string are both falsy. -/
def pyTruthy (o : Option (List Char)) : Bool :=
  match o with
  | some s => s ≠ []
  | none => false

/-- The result-loop date check in `search`: with no truthy date bound every
result is kept; a falsy resolved date is kept; an unparseable resolved-date
part is kept; a `ValueError` while parsing the supplied bounds is caught and
the result is kept; otherwise the result is dropped when the parsed date
part falls before `start` or after `end 23:59:59`. -/
def keepByDate (start_date end_date : Option (List Char)) (m : Metadata) :
    Bool :=
  if !(pyTruthy start_date || pyTruthy end_date) then true
  else
    let docDate := resolvedDate m
    if docDate = [] then true
    else
      match tryFormats searchFmts (datePart docDate) with
      | none => true
      | some dd =>
        if pyTruthy start_date then
          match strptime fmtYmdDash (datePart (start_date.getD [])) with
          | none => true
          | some sdt =>
            if pyTruthy end_date then
              match strptime fmtYmdDash (datePart (end_date.getD [])) with
              | none => true
              | some edt0 =>
                if dtLt dd sdt then false
                else if dtLt (endOfDay edt0) dd then false
                else true
            else if dtLt dd sdt then false else true
        else
          if pyTruthy end_date then
            match strptime fmtYmdDash (datePart (end_date.getD [])) with
            | none => true
            | some edt0 => if dtLt (endOfDay edt0) dd then false else true
          else true

/-- The result-assembly loop of `search`: for each retrieved index/distance
pair look the metadata up and keep it subject to the date check, carrying
the distance along. -/
def searchFiltered {V : Type} (st : Store V) (retrieved : List (Nat × Int))
    (start_date end_date : Option (List Char)) : List (Metadata × Int) :=
  retrieved.filterMap (fun p =>
    match st.meta[p.1]? with
    | some m =>
      if keepByDate start_date end_date m then some (m, p.2) else none
    | none => none)

/-- Stable ascending insertion by distance. -/
def insByDist (r : Metadata × Int) :
    List (Metadata × Int) → List (Metadata × Int)
  | [] => [r]
  | x :: xs => if r.2 < x.2 then r :: x :: xs else x :: insByDist r xs

/-- `results.sort(key=lambda x: x['distance'])`, stable. -/
def sortByDist (l : List (Metadata × Int)) : List (Metadata × Int) :=
  l.foldr insByDist []

/-- `FAISSPersistence.search` after the FAISS nearest-neighbour call, which
is modelled by the `retrieved` list of (index, distance) pairs: empty store
yields `[]`, an out-of-range index raises and yields `[]`, otherwise the
results are date-filtered, sorted by distance and capped at `top_k`. -/
def search {V : Type} (st : Store V) (retrieved : List (Nat × Int))
    (start_date end_date : Option (List Char)) (top_k : Nat) :
    List (Metadata × Int) :=
  if st.meta.isEmpty then []
  else if retrieved.all (fun p => p.1 < st.meta.length) then
    (sortByDist (searchFiltered st retrieved start_date end_date)).take top_k
  else []

/-! `get_statistics`: the date histogram. -/

/-- Increment a key in an insertion-ordered histogram (a Python dict). -/
def bumpKey (stats : List (List Char × Nat)) (key : List Char) :
    List (List Char × Nat) :=
  match stats with
  | [] => [(key, 1)]
  | (k, n) :: rest =>
    if k = key then (k, n + 1) :: rest else (k, n) :: bumpKey rest key

/-- `%02d`-style padding for `strftime`. -/
def pad2 (n : Nat) : List Char :=
  if n < 10 then '0' :: (toString n).data else (toString n).data

/-- `%04d`-style padding for `strftime`. -/
def pad4 (n : Nat) : List Char :=
  if n < 10 then '0' :: '0' :: '0' :: (toString n).data
  else if n < 100 then '0' :: '0' :: (toString n).data
  else if n < 1000 then '0' :: (toString n).data
  else (toString n).data

/-- `parsed_date.strftime('%Y-%m-%d')`. -/
def fmtDateKey (dt : DateTime) : List Char :=
  pad4 dt.year ++ '-' :: pad2 dt.month ++ '-' :: pad2 dt.day

/-- The date histogram of `get_statistics`.  For each record with a truthy
resolved date the date part is tried against the three formats and the first
parse is counted under its normalized `YYYY-MM-DD` key.  When no format
matches, the `except Exception` fallback that would count the raw string is
NOT reached — `strptime` raises `ValueError`, which the inner
`except ValueError: continue` consumes — so the record updates no bucket. -/
def dateStats (ms : List Metadata) : List (List Char × Nat) :=
  ms.foldl (fun acc m =>
    let docDate := resolvedDate m
    if docDate ≠ [] then
      match tryFormats statsFmts (datePart docDate) with
      | some dt => bumpKey acc (fmtDateKey dt)
      | none => acc
    else acc) []

/-! Order facts for the descending string sort. -/

theorem lexLe_total (a b : List Char) : lexLe a b = true ∨ lexLe b a = true := by
  induction a generalizing b with
  | nil => left; rfl
  | cons x xs ih =>
    cases b with
    | nil => right; rfl
    | cons y ys =>
      by_cases hxy : x = y
      · subst hxy
        unfold lexLe
        simp only [if_pos rfl]
        exact ih ys
      · rcases lt_or_gt_of_ne hxy with hlt | hgt
        · left
          unfold lexLe
          rw [if_neg hxy]
          simpa using hlt
        · right
          unfold lexLe
          rw [if_neg (Ne.symm hxy)]
          simpa using hgt

theorem lexLe_trans {a b c : List Char} (h1 : lexLe a b = true)
    (h2 : lexLe b c = true) : lexLe a c = true := by
  induction a generalizing b c with
  | nil => rfl
  | cons x xs ih =>
    cases b with
    | nil => cases h1
    | cons y ys =>
      cases c with
      | nil => cases h2
      | cons z zs =>
        unfold lexLe at h1 h2 ⊢
        by_cases hxy : x = y
        · subst hxy
          rw [if_pos rfl] at h1
          by_cases hyz : x = z
          · subst hyz
            rw [if_pos rfl] at h2
            rw [if_pos rfl]
            exact ih h1 h2
          · rw [if_neg hyz] at h2
            rw [if_neg hyz]
            exact h2
        · rw [if_neg hxy] at h1
          have hxylt : x < y := of_decide_eq_true h1
          by_cases hyz : y = z
          · subst hyz
            rw [if_neg hxy]
            simpa using hxylt
          · rw [if_neg hyz] at h2
            have hyzlt : y < z := of_decide_eq_true h2
            have hxz : x < z := lt_trans hxylt hyzlt
            rw [if_neg (ne_of_lt hxz)]
            simpa using hxz

theorem keyGe_total (a b : Metadata) : keyGe a b = true ∨ keyGe b a = true := by
  unfold keyGe
  rcases lexLe_total (resolvedDate b) (resolvedDate a) with h | h
  · left; exact h
  · right; exact h

theorem keyGe_trans {a b c : Metadata} (h1 : keyGe a b = true)
    (h2 : keyGe b c = true) : keyGe a c = true :=
  lexLe_trans h2 h1

theorem mem_insDesc {x m : Metadata} {l : List Metadata} :
    x ∈ insDesc m l ↔ x = m ∨ x ∈ l := by
  induction l with
  | nil => simp [insDesc]
  | cons y ys ih =>
    unfold insDesc
    by_cases h : keyGe m y = true
    · rw [if_pos h]
      simp [List.mem_cons]
    · rw [if_neg h]
      simp only [List.mem_cons, ih]
      tauto

theorem mem_sortDesc {x : Metadata} {l : List Metadata} :
    x ∈ sortDesc l ↔ x ∈ l := by
  induction l with
  | nil => simp [sortDesc]
  | cons y ys ih =>
    show x ∈ insDesc y (sortDesc ys) ↔ _
    rw [mem_insDesc, ih]
    simp [List.mem_cons]

theorem pairwise_insDesc {m : Metadata} {l : List Metadata}
    (h : l.Pairwise (fun a b => keyGe a b = true)) :
    (insDesc m l).Pairwise (fun a b => keyGe a b = true) := by
  induction l with
  | nil => simp [insDesc]
  | cons x xs ih =>
    rw [List.pairwise_cons] at h
    obtain ⟨hx, hxs⟩ := h
    unfold insDesc
    by_cases hge : keyGe m x = true
    · rw [if_pos hge]
      rw [List.pairwise_cons]
      constructor
      · intro y hy
        rcases List.mem_cons.mp hy with rfl | hy'
        · exact hge
        · exact keyGe_trans hge (hx y hy')
      · rw [List.pairwise_cons]
        exact ⟨hx, hxs⟩
    · rw [if_neg hge]
      rw [List.pairwise_cons]
      constructor
      · intro y hy
        rcases mem_insDesc.mp hy with heq | hy'
        · rw [heq]
          rcases keyGe_total m x with hmx | hxm
          · exact absurd hmx hge
          · exact hxm
        · exact hx y hy'
      · exact ih hxs

theorem sortDesc_sorted (l : List Metadata) :
    (sortDesc l).Pairwise (fun a b => keyGe a b = true) := by
  induction l with
  | nil => simp [sortDesc]
  | cons x xs ih => exact pairwise_insDesc ih

/-- Unfolding of the `get_by_date_range` record filter. -/
theorem inRange_iff {sdt edt : DateTime} {m : Metadata} :
    inRange sdt edt m = true ↔
      resolvedDate m ≠ [] ∧
        ∃ dd, tryFormats searchFmts (datePart (resolvedDate m)) = some dd ∧
          dtLe sdt dd = true ∧ dtLe dd edt = true := by
  unfold inRange
  by_cases hne : resolvedDate m ≠ []
  · rw [if_pos (by simpa using hne)]
    cases htf : tryFormats searchFmts (datePart (resolvedDate m)) with
    | none =>
      simp only [htf]
      constructor
      · intro h; cases h
      · rintro ⟨_, dd, hdd, _⟩; cases hdd
    | some dd =>
      simp only [htf, Bool.and_eq_true]
      constructor
      · rintro ⟨h1, h2⟩
        exact ⟨hne, dd, rfl, h1, h2⟩
      · rintro ⟨_, dd', hdd', h1, h2⟩
        cases hdd'
        exact ⟨h1, h2⟩
  · rw [if_neg (by simpa using hne)]
    constructor
    · intro h; cases h
    · rintro ⟨h1, _⟩
      exact absurd h1 hne

/-- A metadata record with a given publish time and a fixed extraction
time, all other fields empty. -/
def sampleMeta (p : List Char) : Metadata where
  title := []
  content := []
  url := []
  publish_time := p
  extraction_time := "2025-01-01 00:00:00".data
  channel := []
  channel_name := []
  module := []
  module_name := []
  summary := []
  keywords := []
  key_points := []

/-- A record dated `2025/09/02` (slash format). -/
def mSlash : Metadata := sampleMeta "2025/09/02".data

/-- A record dated `2025-09-05` (dash format). -/
def mDash : Metadata := sampleMeta "2025-09-05".data

/-- A record dated `2025-10-01`. -/
def mOct : Metadata := sampleMeta "2025-10-01".data

/-- C6, counterexample to the claim as stated: `get_by_date_range` sorts by
the raw resolved-date string descending, which is not descending by date
across formats.  With records dated `2025/09/02` and `2025-09-05` (both
inside September 2025), the slash record sorts first because `'/' > '-'` in
code-point order, although its date is strictly earlier. -/
theorem C6_counterexample :
    get_by_date_range (⟨[0, 0], [mSlash, mDash]⟩ : Store Nat)
        "2025-09-01".data "2025-09-30".data 50 = [mSlash, mDash] ∧
      tryFormats searchFmts (datePart (resolvedDate mSlash))
        = some ⟨2025, 9, 2, 0, 0, 0⟩ ∧
      tryFormats searchFmts (datePart (resolvedDate mDash))
        = some ⟨2025, 9, 5, 0, 0, 0⟩ ∧
      dtLt ⟨2025, 9, 2, 0, 0, 0⟩ ⟨2025, 9, 5, 0, 0, 0⟩ = true := by
  refine ⟨?_, rfl, rfl, rfl⟩
  rfl

/-- C6 as amended: for well-formed `YYYY-MM-DD` bounds,
`get_by_date_range(start, end, top_k)` returns only stored records whose
resolved-date part parses under one of the four formats to a date `d` with
`start ≤ d ≤ end 23:59:59`; the result is sorted descending by the raw
resolved-date string (which coincides with date order only within a single
format family) and is capped at `top_k`. -/
theorem C6_get_by_date_range_filter_sort_cap {V : Type} (st : Store V)
    (start_date end_date : List Char) (top_k : Nat) (sdt edt0 : DateTime)
    (hs : strptime fmtYmdDash (datePart start_date) = some sdt)
    (he : strptime fmtYmdDash (datePart end_date) = some edt0) :
    (∀ m ∈ get_by_date_range st start_date end_date top_k,
        m ∈ st.meta ∧
          ∃ dd, tryFormats searchFmts (datePart (resolvedDate m)) = some dd ∧
            dtLe sdt dd = true ∧ dtLe dd (endOfDay edt0) = true) ∧
      (get_by_date_range st start_date end_date top_k).Pairwise
        (fun a b => lexLe (resolvedDate b) (resolvedDate a) = true) ∧
      (get_by_date_range st start_date end_date top_k).length ≤ top_k := by
  by_cases hemp : st.meta.isEmpty
  · unfold get_by_date_range
    rw [if_pos hemp]
    refine ⟨?_, List.Pairwise.nil, by simp⟩
    intro m hm
    cases hm
  · have hval : get_by_date_range st start_date end_date top_k
        = (sortDesc (st.meta.filter (inRange sdt (endOfDay edt0)))).take top_k := by
      unfold get_by_date_range
      rw [if_neg hemp, hs, he]
    rw [hval]
    refine ⟨?_, ?_, ?_⟩
    · intro m hm
      have hm1 : m ∈ sortDesc (st.meta.filter (inRange sdt (endOfDay edt0))) :=
        (List.take_sublist _ _).mem hm
      have hm2 : m ∈ st.meta.filter (inRange sdt (endOfDay edt0)) :=
        mem_sortDesc.mp hm1
      obtain ⟨hmem, hir⟩ := List.mem_filter.mp hm2
      obtain ⟨_, dd, hdd, h1, h2⟩ := inRange_iff.mp hir
      exact ⟨hmem, dd, hdd, h1, h2⟩
    · exact (sortDesc_sorted _).sublist (List.take_sublist _ _)
    · exact List.length_take_le _ _
  
/-- Concrete instantiation of the amended `get_by_date_range` theorem; the
record dated `2025-10-01` is indeed excluded from the September query. -/
theorem C6_get_by_date_range_witness :
    strptime fmtYmdDash (datePart "2025-09-01".data)
        = some ⟨2025, 9, 1, 0, 0, 0⟩ ∧
      strptime fmtYmdDash (datePart "2025-09-30".data)
        = some ⟨2025, 9, 30, 0, 0, 0⟩ ∧
      get_by_date_range (⟨[0, 0], [mOct, mDash]⟩ : Store Nat)
          "2025-09-01".data "2025-09-30".data 50 = [mDash] ∧
      ((∀ m ∈ get_by_date_range (⟨[0, 0], [mOct, mDash]⟩ : Store Nat)
            "2025-09-01".data "2025-09-30".data 50,
          m ∈ ([mOct, mDash] : List Metadata) ∧
            ∃ dd, tryFormats searchFmts (datePart (resolvedDate m)) = some dd ∧
              dtLe ⟨2025, 9, 1, 0, 0, 0⟩ dd = true ∧
              dtLe dd (endOfDay ⟨2025, 9, 30, 0, 0, 0⟩) = true) ∧
        (get_by_date_range (⟨[0, 0], [mOct, mDash]⟩ : Store Nat)
            "2025-09-01".data "2025-09-30".data 50).Pairwise
          (fun a b => lexLe (resolvedDate b) (resolvedDate a) = true) ∧
        (get_by_date_range (⟨[0, 0], [mOct, mDash]⟩ : Store Nat)
            "2025-09-01".data "2025-09-30".data 50).length ≤ 50) :=
  ⟨rfl, rfl, by rfl,
    C6_get_by_date_range_filter_sort_cap (⟨[0, 0], [mOct, mDash]⟩ : Store Nat)
      "2025-09-01".data "2025-09-30".data 50 _ _ rfl rfl⟩

/-- Helper: an empty string never parses as `%Y-%m-%d`. -/
theorem strptime_dash_nil : strptime fmtYmdDash (datePart []) = none := rfl

/-- C7, counterexample to the claim as stated.  The code parses only the
part of the resolved date before the first space.  `claimedDateParse`
follows the spec's words instead: the resolved date itself is tried against
the four formats.  A record whose publish time is `2025-09-21 06:05`
(minutes but no seconds — the very format `extract_publish_time` produces)
parses under none of the four formats as a whole string, so the claim says
it must be kept (fail-open); the code parses its date part `2025-09-21` and
discards it from an October query. -/
def claimedDateParse (m : Metadata) : Option DateTime :=
  tryFormats searchFmts (resolvedDate m)

/-- A record whose publish time has minutes but no seconds. -/
def mMinutes : Metadata := sampleMeta "2025-09-21 06:05".data

theorem C7_counterexample :
    claimedDateParse mMinutes = none ∧
      keepByDate (some "2025-10-01".data) (some "2025-10-31".data) mMinutes
        = false := ⟨rfl, rfl⟩

/-- C7 as amended: for a search with a well-formed `YYYY-MM-DD` date range,
a retrieved result is discarded exactly when the part of its resolved date
before the first space parses under one of the four formats (first success
wins; the first format, which requires a time of day, can never match the
truncated string) and the parsed date lies outside
`[start_date, end_date 23:59:59]`; in particular a result whose resolved
date part parses under none of the formats is kept, and the whole filter is
a total function (no date error escapes `search`). -/
theorem keepByDate_eval {s e : List Char} {sdt edt0 : DateTime} (m : Metadata)
    (hs : strptime fmtYmdDash (datePart s) = some sdt)
    (he : strptime fmtYmdDash (datePart e) = some edt0) :
    keepByDate (some s) (some e) m =
      match tryFormats searchFmts (datePart (resolvedDate m)) with
      | none => true
      | some dd => !(dtLt dd sdt || dtLt (endOfDay edt0) dd) := by
  have hsne : s ≠ [] := by
    intro h0
    rw [h0, strptime_dash_nil] at hs
    cases hs
  have hene : e ≠ [] := by
    intro h0
    rw [h0, strptime_dash_nil] at he
    cases he
  have hts : pyTruthy (some s) = true := by simpa [pyTruthy] using hsne
  have hte : pyTruthy (some e) = true := by simpa [pyTruthy] using hene
  unfold keepByDate
  simp only [Option.getD_some, hts, hte, hs, he, Bool.or_self, Bool.not_true,
    Bool.false_eq_true, if_false, if_true]
  by_cases hdoc : resolvedDate m = []
  · rw [if_pos hdoc, hdoc]
    rfl
  · rw [if_neg hdoc]
    cases htf : tryFormats searchFmts (datePart (resolvedDate m)) with
    | none => rfl
    | some dd =>
      cases h1 : dtLt dd sdt with
      | true => simp [h1]
      | false =>
        cases h2 : dtLt (endOfDay edt0) dd with
        | true => simp [h1, h2]
        | false => simp [h1, h2]

/-- C7 as amended: for a search with a well-formed `YYYY-MM-DD` date range,
a retrieved result is discarded exactly when the part of its resolved date
before the first space parses under one of the four formats (first success
wins; the first format, which requires a time of day, can never match the
truncated string) and the parsed date lies outside
`[start_date, end_date 23:59:59]`; in particular a result whose resolved
date part parses under none of the formats is kept, and the whole filter is
a total function (no date error escapes `search`). -/
theorem C7_search_date_filter {V : Type} (st : Store V)
    (retrieved : List (Nat × Int)) (s e : List Char) (sdt edt0 : DateTime)
    (hs : strptime fmtYmdDash (datePart s) = some sdt)
    (he : strptime fmtYmdDash (datePart e) = some edt0) :
    (∀ m : Metadata, keepByDate (some s) (some e) m = false ↔
        ∃ dd, tryFormats searchFmts (datePart (resolvedDate m)) = some dd ∧
          (dtLt dd sdt = true ∨ dtLt (endOfDay edt0) dd = true)) ∧
      (∀ (m : Metadata) (dist : Int),
        (m, dist) ∈ searchFiltered st retrieved (some s) (some e) ↔
          ∃ i, (i, dist) ∈ retrieved ∧ st.meta[i]? = some m ∧
            keepByDate (some s) (some e) m = true) := by
  constructor
  · intro m
    rw [keepByDate_eval m hs he]
    cases htf : tryFormats searchFmts (datePart (resolvedDate m)) with
    | none =>
      constructor
      · intro h; cases h
      · rintro ⟨dd, hdd, _⟩
        cases hdd
    | some dd =>
      constructor
      · intro h
        refine ⟨dd, rfl, ?_⟩
        have hor : (dtLt dd sdt || dtLt (endOfDay edt0) dd) = true := by
          rcases Bool.eq_false_or_eq_true (dtLt dd sdt || dtLt (endOfDay edt0) dd)
            with hb | hb
          · exact hb
          · exfalso
            rw [show (match (some dd : Option DateTime) with
              | none => true
              | some dd => !(dtLt dd sdt || dtLt (endOfDay edt0) dd))
                = !(dtLt dd sdt || dtLt (endOfDay edt0) dd) from rfl, hb] at h
            cases h
        exact Bool.or_eq_true_iff.mp hor
      · rintro ⟨dd', hdd', hout⟩
        have heq : dd' = dd := (Option.some.inj hdd').symm
        subst heq
        show (!(dtLt dd' sdt || dtLt (endOfDay edt0) dd')) = false
        rcases hout with hout | hout <;> simp [hout]
  · intro m dist
    unfold searchFiltered
    rw [List.mem_filterMap]
    constructor
    · rintro ⟨p, hp, hf⟩
      cases hidx : st.meta[p.1]? with
      | none => rw [hidx] at hf; cases hf
      | some m' =>
        rw [hidx] at hf
        have hf' : (if keepByDate (some s) (some e) m' = true
            then some (m', p.2) else none) = some (m, dist) := hf
        by_cases hk : keepByDate (some s) (some e) m' = true
        · rw [if_pos hk] at hf'
          obtain ⟨hm', hd⟩ := Prod.mk.inj (Option.some.inj hf')
          refine ⟨p.1, ?_, ?_, ?_⟩
          · rw [← hd]; exact hp
          · rw [hidx, hm']
          · rw [← hm']; exact hk
        · rw [if_neg hk] at hf'
          cases hf'
    · rintro ⟨i, hi, hidx, hk⟩
      refine ⟨(i, dist), hi, ?_⟩
      rw [hidx]
      show (if keepByDate (some s) (some e) m = true
          then some (m, dist) else none) = some (m, dist)
      rw [if_pos hk]

/-- Concrete instantiation of the amended search-filter theorem; the slash
record is kept and carries its distance, while the October record is
dropped by the September range. -/
theorem C7_search_date_filter_witness :
    strptime fmtYmdDash (datePart "2025-09-01".data)
        = some ⟨2025, 9, 1, 0, 0, 0⟩ ∧
      strptime fmtYmdDash (datePart "2025-09-30".data)
        = some ⟨2025, 9, 30, 0, 0, 0⟩ ∧
      searchFiltered (⟨[0, 0], [mSlash, mOct]⟩ : Store Nat) [(0, 3), (1, 5)]
          (some "2025-09-01".data) (some "2025-09-30".data) = [(mSlash, 3)] ∧
      ((∀ m : Metadata,
          keepByDate (some "2025-09-01".data) (some "2025-09-30".data) m
              = false ↔
            ∃ dd, tryFormats searchFmts (datePart (resolvedDate m)) = some dd ∧
              (dtLt dd ⟨2025, 9, 1, 0, 0, 0⟩ = true ∨
                dtLt (endOfDay ⟨2025, 9, 30, 0, 0, 0⟩) dd = true)) ∧
        (∀ (m : Metadata) (dist : Int),
          (m, dist) ∈ searchFiltered (⟨[0, 0], [mSlash, mOct]⟩ : Store Nat)
              [(0, 3), (1, 5)] (some "2025-09-01".data)
              (some "2025-09-30".data) ↔
            ∃ i, (i, dist) ∈ [((0 : Nat), (3 : Int)), (1, 5)] ∧
              (⟨[0, 0], [mSlash, mOct]⟩ : Store Nat).meta[i]? = some m ∧
              keepByDate (some "2025-09-01".data) (some "2025-09-30".data) m
                = true)) :=
  ⟨rfl, rfl, by rfl,
    C7_search_date_filter (⟨[0, 0], [mSlash, mOct]⟩ : Store Nat)
      [(0, 3), (1, 5)] "2025-09-01".data "2025-09-30".data _ _ rfl rfl⟩

/-- C9: a metadata record whose resolved date is truthy but matches none of
the statistics formats updates no bucket of the date histogram — the
`except Exception` fallback that the code's own comment announces
(`如果无法解析日期，使用原始日期字符串`) is unreachable, because every
`strptime` mismatch raises `ValueError`, which the inner
`except ValueError: continue` consumes.  Evaluating the model at the
failing input: the histogram of a store holding one record dated
`2025.09.21` is empty instead of `{"2025.09.21": 1}`. -/
theorem C9_unparseable_date_dropped :
    resolvedDate (sampleMeta "2025.09.21".data) = "2025.09.21".data ∧
      tryFormats statsFmts
          (datePart (resolvedDate (sampleMeta "2025.09.21".data))) = none ∧
      dateStats [sampleMeta "2025.09.21".data] = [] := ⟨rfl, rfl, rfl⟩

end VectorDB

namespace Crawler

/-! The extraction pipeline of `UniversalWebExtractor`.  HTML parsing,
trafilatura, readability and `urljoin` are external libraries; the parsed
content region is modelled as a list of text and image nodes, the library
outputs as oracle fields of `Html`, and `urljoin` as a function parameter
`uj`.  Everything the extractor itself computes is modelled from the
source. -/

/-- Decimal digit character (used to model Python's `{i}` formatting). -/
def digitChar (d : Nat) : Char :=
  if d = 0 then '0' else if d = 1 then '1' else if d = 2 then '2'
  else if d = 3 then '3' else if d = 4 then '4' else if d = 5 then '5'
  else if d = 6 then '6' else if d = 7 then '7' else if d = 8 then '8'
  else '9'

/-- Fuel-driven decimal digits accumulator. -/
def natCharsGo : Nat → Nat → List Char → List Char
  | 0, _, acc => acc
  | fuel + 1, n, acc =>
    if n = 0 then acc else natCharsGo fuel (n / 10) (digitChar (n % 10) :: acc)

/-- The decimal representation of a natural number, as Python formats it. -/
def natChars (n : Nat) : List Char :=
  if n = 0 then ['0'] else natCharsGo n n []

/-- Reference big-endian digits by well-founded recursion (spec of
`natCharsGo`). -/
def natCharsRec (n : Nat) : List Char :=
  if h : n = 0 then [] else natCharsRec (n / 10) ++ [digitChar (n % 10)]
termination_by n
decreasing_by
  exact Nat.div_lt_self (Nat.pos_of_ne_zero h) (by omega)

/-- Parse digits back to a number. -/
def digitsVal (l : List Char) : Nat :=
  l.foldl (fun acc c => acc * 10 + (c.toNat - 48)) 0

theorem digitChar_isDigit (d : Nat) : (digitChar d).isDigit = true := by
  unfold digitChar
  repeat' split
  all_goals decide

theorem digitChar_toNat (d : Nat) (h : d < 10) : (digitChar d).toNat = 48 + d := by
  interval_cases d <;> decide

theorem natCharsRec_digits {n : Nat} : ∀ c ∈ natCharsRec n, c.isDigit = true := by
  induction n using natCharsRec.induct with
  | case1 =>
    rw [natCharsRec, dif_pos rfl]
    intro c hc
    cases hc
  | case2 n h =>
    rename_i ih
    rw [natCharsRec, dif_neg h]
    intro c hc
    rcases List.mem_append.mp hc with hc | hc
    · exact ih c hc
    · rcases List.mem_singleton.mp hc with rfl
      exact digitChar_isDigit _

theorem digitsVal_append_digit (a : List Char) (c : Char) :
    digitsVal (a ++ [c]) = digitsVal a * 10 + (c.toNat - 48) := by
  unfold digitsVal
  rw [List.foldl_append]
  rfl

theorem digitsVal_natCharsRec (n : Nat) : digitsVal (natCharsRec n) = n := by
  induction n using natCharsRec.induct with
  | case1 =>
    rw [natCharsRec, dif_pos rfl]
    rfl
  | case2 n h =>
    rename_i ih
    rw [natCharsRec, dif_neg h, digitsVal_append_digit, ih,
      digitChar_toNat _ (Nat.mod_lt n (by omega))]
    omega

theorem natCharsGo_eq_rec :
    ∀ (fuel n : Nat) (acc : List Char), n ≤ fuel →
      natCharsGo fuel n acc = natCharsRec n ++ acc := by
  intro fuel
  induction fuel with
  | zero =>
    intro n acc h
    have hn : n = 0 := Nat.le_zero.mp h
    rw [hn, natCharsGo, natCharsRec, dif_pos rfl]
    rfl
  | succ fuel ih =>
    intro n acc h
    by_cases hn : n = 0
    · rw [hn, natCharsGo, if_pos rfl, natCharsRec, dif_pos rfl]
      rfl
    · rw [natCharsGo, if_neg hn, ih (n / 10) _
        (by
          have := Nat.div_lt_self (Nat.pos_of_ne_zero hn) (show 1 < 10 by omega)
          omega)]
      conv_rhs => rw [natCharsRec]
      rw [dif_neg hn, List.append_assoc]
      rfl

theorem natChars_eq_rec {n : Nat} (h : n ≠ 0) : natChars n = natCharsRec n := by
  rw [natChars, if_neg h, natCharsGo_eq_rec n n [] (le_refl n), List.append_nil]

theorem natChars_digits {n : Nat} : ∀ c ∈ natChars n, c.isDigit = true := by
  by_cases h : n = 0
  · rw [h]
    intro c hc
    rcases List.mem_singleton.mp hc with rfl
    decide
  · rw [natChars_eq_rec h]
    exact natCharsRec_digits

theorem natChars_inj {n m : Nat} (h : natChars n = natChars m) : n = m := by
  by_cases hn : n = 0 <;> by_cases hm : m = 0
  · omega
  · rw [hn, natChars_eq_rec hm] at h
    have hv := digitsVal_natCharsRec m
    rw [← h] at hv
    rw [show digitsVal (natChars 0) = 0 from rfl] at hv
    omega
  · rw [hm, natChars_eq_rec hn] at h
    have hv := digitsVal_natCharsRec n
    rw [h] at hv
    rw [show digitsVal (natChars 0) = 0 from rfl] at hv
    omega
  · rw [natChars_eq_rec hn, natChars_eq_rec hm] at h
    have h1 := digitsVal_natCharsRec n
    have h2 := digitsVal_natCharsRec m
    rw [h] at h1
    omega

theorem natChars_ne_nil (n : Nat) : natChars n ≠ [] := by
  by_cases h : n = 0
  · rw [h]
    decide
  · rw [natChars_eq_rec h]
    intro habs
    have hv := digitsVal_natCharsRec n
    rw [habs, show digitsVal [] = 0 from rfl] at hv
    exact h hv.symm

/-- Digit characters are not brackets, newlines or whitespace. -/
theorem isDigit_facts {c : Char} (h : c.isDigit = true) :
    c ≠ '[' ∧ c ≠ ']' ∧ c ≠ '\n' ∧ pyIsSpace c = false ∧ isHws c = false := by
  have hb : 48 ≤ c.toNat ∧ c.toNat ≤ 57 := by
    unfold Char.isDigit at h
    rcases Bool.and_eq_true_iff.mp h with ⟨h1, h2⟩
    exact ⟨by exact_mod_cast of_decide_eq_true h1, by exact_mod_cast of_decide_eq_true h2⟩
  refine ⟨?_, ?_, ?_, ?_, ?_⟩
  · intro he; rw [he] at hb; simp at hb
  · intro he; rw [he] at hb; simp at hb
  · intro he; rw [he] at hb; simp at hb
  · simp only [pyIsSpace, Bool.or_eq_false_iff, Bool.and_eq_false_iff,
      decide_eq_false_iff_not, not_le, not_lt]
    omega
  · simp only [isHws, Bool.or_eq_false_iff, decide_eq_false_iff_not]
    constructor
    · intro he; rw [he] at hb; simp at hb
    · intro he; rw [he] at hb; simp at hb

end Crawler

namespace Crawler

/-- An `<img>` element: the three source attributes the extractor checks
(`src`, `data-src`, `data-original`; `none` = attribute absent), plus
`alt`, `width` and `height`. -/
structure Img where
  src : Option (List Char) := none
  dataSrc : Option (List Char) := none
  dataOriginal : Option (List Char) := none
  alt : Option (List Char) := none
  width : Option (List Char) := none
  height : Option (List Char) := none
deriving DecidableEq, Inhabited

/-- Python `a or b` on optional strings: `a` when truthy, else `b`. -/
def pyOrStr : Option (List Char) → Option (List Char) → Option (List Char)
  | some s, b => if s ≠ [] then some s else b
  | none, b => b

/-- `img.get('src') or img.get('data-src') or img.get('data-original')`
followed by the `if src:` truthiness test. -/
def effSrc (im : Img) : Option (List Char) :=
  match pyOrStr (pyOrStr im.src im.dataSrc) im.dataOriginal with
  | some s => if s ≠ [] then some s else none
  | none => none

/-- A node of the content region: a text node or an image element. -/
inductive Node where
  | text (s : List Char)
  | img (im : Img)
deriving DecidableEq, Inhabited

/-- The image record `extract_content_with_image_markers` emits.  Note:
there is no `position` field — the function only writes `id = "img_<i>"`
(`position` exists only in the unused
`extract_images_from_content_with_positions`). -/
structure Image where
  url : List Char
  alt : List Char
  width : Option (List Char)
  height : Option (List Char)
  id : List Char
deriving DecidableEq, Inhabited

/-- The marker string the extractor inserts for the `i`-th image element:
`f"[IMAGE_PLACEHOLDER_{i}]"` — square brackets included. -/
def markerToken (i : Nat) : List Char :=
  "[IMAGE_PLACEHOLDER_".data ++ natChars i ++ "]".data

/-- The enumeration loop over `content_copy.find_all('img')`: the index `i`
counts every image element; an image with a truthy source is replaced by a
marker span and contributes an `Image` record with `id = "img_<i>"` and a
`urljoin`-resolved URL; an image without one stays in place (contributing
no text) and no record. -/
def processNodes (uj : List Char → List Char → List Char) (base : List Char) :
    List Node → Nat → List Node × List Image
  | [], _ => ([], [])
  | Node.text s :: rest, i =>
    let r := processNodes uj base rest i
    (Node.text s :: r.1, r.2)
  | Node.img im :: rest, i =>
    match effSrc im with
    | some src =>
      let r := processNodes uj base rest (i + 1)
      (Node.text (markerToken i) :: r.1,
        { url := uj base src, alt := im.alt.getD [], width := im.width,
          height := im.height, id := "img_".data ++ natChars i } :: r.2)
    | none =>
      let r := processNodes uj base rest (i + 1)
      (Node.img im :: r.1, r.2)

/-- `'\n'.join(...)` over a piece list. -/
def joinPieces : List (List Char) → List Char
  | [] => []
  | [p] => p
  | p :: ps => p ++ '\n' :: joinPieces ps

/-- The visible-text piece a node contributes to
`get_text(separator='\n', strip=True)`: each text string stripped, empty
results skipped, image elements contributing nothing. -/
def pieceOf : Node → Option (List Char)
  | Node.text s => let t := pyStrip s; if t = [] then none else some t
  | Node.img _ => none

/-- `content_copy.get_text(separator='\n', strip=True)`. -/
def getText (nodes : List Node) : List Char :=
  joinPieces (nodes.filterMap pieceOf)

/-- `UniversalWebExtractor.extract_content_with_image_markers` applied to
the resolved content region. -/
def extract_content_with_image_markers
    (uj : List Char → List Char → List Char) (region : List Node)
    (base : List Char) : List Char × List Image :=
  let r := processNodes uj base region 0
  (getText r.1, r.2)

/-- The fields of the JSON object `trafilatura.extract` returns. -/
structure TrafData where
  title : List Char := []
  text : List Char := []
  excerpt : List Char := []
  author : List Char := []
  date : List Char := []
deriving DecidableEq, Inhabited

/-- What the readability `Document` yields: `doc.title()` and the plain
text of `doc.summary()`. -/
structure ReadData where
  title : List Char := []
  summaryText : List Char := []
deriving DecidableEq, Inhabited

/-- A fetched page: the resolved content region (the selector chain and
`BeautifulSoup` are external), the library oracle outputs (`none` =
returned `None` or raised), the `<title>` text and the
`extract_publish_time` result. -/
structure Html where
  region : List Node
  traf : Option TrafData := none
  readData : Option ReadData := none
  htmlTitle : Option (List Char) := none
  pubTime : List Char := []
deriving DecidableEq, Inhabited

/-- The dict either strategy returns. -/
structure ExtractResult where
  title : List Char
  content : List Char
  images : List Image
  source : List Char
  excerpt : List Char
  author : List Char
  date : List Char
deriving DecidableEq, Inhabited

/-- `UniversalWebExtractor.extract_with_trafilatura`: `None` when the
library returned nothing (or raised); otherwise marker content when
non-empty, else the library text; `source = 'trafilatura'`; an empty
library title is replaced by the stripped `<title>` text when that is
truthy. -/
def extract_with_trafilatura (uj : List Char → List Char → List Char)
    (html : Html) (url : List Char) : Option ExtractResult :=
  match html.traf with
  | none => none
  | some data =>
    let cm := extract_content_with_image_markers uj html.region url
    let content := if cm.1 ≠ [] then cm.1 else data.text
    let title :=
      if data.title = [] then
        match html.htmlTitle with
        | some t => if t ≠ [] then pyStrip t else data.title
        | none => data.title
      else data.title
    some { title := title, content := content, images := cm.2,
           source := "trafilatura".data, excerpt := data.excerpt,
           author := data.author, date := data.date }

/-- `UniversalWebExtractor.extract_with_readability`: `None` when the
library raised; otherwise marker content when non-empty, else the summary
text; `source = 'readability'`. -/
def extract_with_readability (uj : List Char → List Char → List Char)
    (html : Html) (url : List Char) : Option ExtractResult :=
  match html.readData with
  | none => none
  | some rd =>
    let cm := extract_content_with_image_markers uj html.region url
    let content := if cm.1 ≠ [] then cm.1 else rd.summaryText
    some { title := rd.title, content := content, images := cm.2,
           source := "readability".data, excerpt := [], author := [],
           date := [] }

/-- The emitted document dict of a successful `smart_extract`. -/
structure Document where
  title : List Char
  content : List Char
  images : List Image
  source : List Char
  excerpt : List Char
  author : List Char
  date : List Char
  url : List Char
  extraction_time : List Char
  content_length : Nat
  image_count : Nat
  publish_time : Option (List Char)
deriving DecidableEq, Inhabited

/-- The three shapes `smart_extract` returns: the fetch-failure error dict,
the all-strategies-failed error dict, or a document. -/
inductive SmartResult where
  | fetchError
  | allFailed (url : List Char)
  | ok (doc : Document)
deriving DecidableEq, Inhabited

/-- The post-processing of an accepted result: clean the content, attach
`url`, `extraction_time` (`now`), derived lengths and the separately
extracted publish time (only when truthy). -/
def finalize (r : ExtractResult) (html : Html) (url now : List Char) :
    Document :=
  let cleaned := clean_content r.content
  { title := r.title, content := cleaned, images := r.images,
    source := r.source, excerpt := r.excerpt, author := r.author,
    date := r.date, url := url, extraction_time := now,
    content_length := cleaned.length, image_count := r.images.length,
    publish_time := if html.pubTime ≠ [] then some html.pubTime else none }

/-- `UniversalWebExtractor.smart_extract`: fetch (the delegate's result is
the `fetched` argument), try trafilatura, fall back to readability when the
result is `None` or its content is shorter than 100 characters, and
post-process, or report failure. -/
def smart_extract (uj : List Char → List Char → List Char)
    (fetched : Option Html) (url now : List Char) : SmartResult :=
  match fetched with
  | none => SmartResult.fetchError
  | some html =>
    let r0 := extract_with_trafilatura uj html url
    let useFallback : Bool :=
      match r0 with
      | none => true
      | some r => r.content.length < 100
    let r1 := if useFallback then extract_with_readability uj html url else r0
    match r1 with
    | some r => SmartResult.ok (finalize r html url now)
    | none => SmartResult.allFailed url

end Crawler

namespace Crawler

theorem traf_source {uj : List Char → List Char → List Char} {html : Html}
    {url : List Char} {r : ExtractResult}
    (h : extract_with_trafilatura uj html url = some r) :
    r.source = "trafilatura".data := by
  unfold extract_with_trafilatura at h
  cases htr : html.traf with
  | none => rw [htr] at h; cases h
  | some data =>
    rw [htr] at h
    cases Option.some.inj h
    rfl

theorem read_source {uj : List Char → List Char → List Char} {html : Html}
    {url : List Char} {r : ExtractResult}
    (h : extract_with_readability uj html url = some r) :
    r.source = "readability".data := by
  unfold extract_with_readability at h
  cases htr : html.readData with
  | none => rw [htr] at h; cases h
  | some rd =>
    rw [htr] at h
    cases Option.some.inj h
    rfl

/-- A trivial model of `urljoin` for concrete instances. -/
def ujConcat : List Char → List Char → List Char := fun b s => b ++ s

/-- A page where trafilatura succeeds but extracts fewer than 100
characters, and readability succeeds. -/
def htmlShortTraf : Html :=
  { region := [],
    traf := some { text := "short".data, title := "t".data },
    readData := some { title := "rt".data,
                       summaryText := "readability text body".data } }

/-- C3, counterexample to the claim as stated: when the fallback strategy's
output is used, the emitted document's `source` field is the string
`"readability"` (the strategy's library name, set in
`extract_with_readability`), not `"fallback"`. -/
theorem C3_counterexample :
    smart_extract ujConcat (some htmlShortTraf) "http://e.x/a".data
        "2025-10-12 10:00:00".data =
      SmartResult.ok
        { title := "rt".data, content := "readability text body".data,
          images := [], source := "readability".data, excerpt := [],
          author := [], date := [], url := "http://e.x/a".data,
          extraction_time := "2025-10-12 10:00:00".data,
          content_length := 21, image_count := 0, publish_time := none } ∧
      "readability".data ≠ "fallback".data := by
  constructor
  · have hclean : clean_content "readability text body".data
        = "readability text body".data :=
      clean_content_of_fixed (by decide) (by decide) (by decide) (by decide)
        (by decide)
    have hstep : smart_extract ujConcat (some htmlShortTraf)
        "http://e.x/a".data "2025-10-12 10:00:00".data =
        SmartResult.ok (finalize
          { title := "rt".data, content := "readability text body".data,
            images := [], source := "readability".data, excerpt := [],
            author := [], date := [] }
          htmlShortTraf "http://e.x/a".data "2025-10-12 10:00:00".data) := rfl
    rw [hstep]
    simp only [finalize, hclean]
    rfl
  · decide

/-- The unfolding of `smart_extract` on a fetched page. -/
theorem smart_extract_some (uj : List Char → List Char → List Char)
    (html : Html) (url now : List Char) :
    smart_extract uj (some html) url now =
      (match (if (match extract_with_trafilatura uj html url with
          | none => true
          | some r => decide (r.content.length < 100)) = true
          then extract_with_readability uj html url
          else extract_with_trafilatura uj html url) with
        | some r => SmartResult.ok (finalize r html url now)
        | none => SmartResult.allFailed url) := rfl

/-- C3 as amended: whenever the primary (trafilatura) strategy returns
`None` or a result whose content is shorter than 100 characters, the
fallback (readability) strategy is run on the same page and its output is
the emitted document (or, when it too returns `None`, the
all-strategies-failed error record); a document emitted on the fallback
path carries `source = "readability"`.  When the primary result has
content of at least 100 characters, the fallback is not used and the
document is built from the primary result, whose `source` is
`"trafilatura"`. -/
theorem C3_strategy_fallback_trigger (uj : List Char → List Char → List Char)
    (html : Html) (url now : List Char) :
    ((extract_with_trafilatura uj html url = none ∨
        (∃ r, extract_with_trafilatura uj html url = some r ∧
          r.content.length < 100)) →
      smart_extract uj (some html) url now =
        (match extract_with_readability uj html url with
         | some r => SmartResult.ok (finalize r html url now)
         | none => SmartResult.allFailed url) ∧
      (∀ r, extract_with_readability uj html url = some r →
        ∃ doc, smart_extract uj (some html) url now = SmartResult.ok doc ∧
          doc.source = "readability".data)) ∧
    (∀ r, extract_with_trafilatura uj html url = some r →
      100 ≤ r.content.length →
      smart_extract uj (some html) url now
          = SmartResult.ok (finalize r html url now) ∧
        r.source = "trafilatura".data) := by
  constructor
  · intro htrig
    have hmain : smart_extract uj (some html) url now =
        (match extract_with_readability uj html url with
         | some r => SmartResult.ok (finalize r html url now)
         | none => SmartResult.allFailed url) := by
      rw [smart_extract_some]
      cases hr0 : extract_with_trafilatura uj html url with
      | none => rfl
      | some r =>
        have hlt : r.content.length < 100 := by
          rcases htrig with h0 | ⟨r', hr', hlt⟩
          · rw [hr0] at h0; cases h0
          · rw [hr0] at hr'
            cases Option.some.inj hr'
            exact hlt
        rw [if_pos (show (decide (r.content.length < 100)) = true from decide_eq_true hlt)]
    refine ⟨hmain, ?_⟩
    intro r hr
    refine ⟨finalize r html url now, ?_, read_source hr⟩
    rw [hmain, hr]
  · intro r hr0 hge
    constructor
    · rw [smart_extract_some, hr0]
      rw [if_neg (show ¬(decide (r.content.length < 100)) = true from
        fun hd => absurd (of_decide_eq_true hd) (Nat.not_lt.mpr hge))]
    · exact traf_source hr0

/-- The primary result on `htmlShortTraf`. -/
def trafShortRes : ExtractResult :=
  { title := "t".data, content := "short".data, images := [],
    source := "trafilatura".data, excerpt := [], author := [], date := [] }

/-- Concrete instantiation of the fallback-trigger theorem on the page
whose primary extraction yields 5 characters: the fallback path fires and
the emitted document source is `"readability"`. -/
theorem C3_strategy_fallback_trigger_witness :
    (extract_with_trafilatura ujConcat htmlShortTraf "http://e.x/a".data
        = some trafShortRes ∧ trafShortRes.content.length < 100) ∧
      ∃ doc, smart_extract ujConcat (some htmlShortTraf) "http://e.x/a".data
          "2025-10-12 10:00:00".data = SmartResult.ok doc ∧
        doc.source = "readability".data := by
  refine ⟨⟨rfl, by decide⟩, ?_⟩
  exact ((C3_strategy_fallback_trigger ujConcat htmlShortTraf
      "http://e.x/a".data "2025-10-12 10:00:00".data).1
    (Or.inr ⟨trafShortRes, rfl, by decide⟩)).2
    { title := "rt".data, content := "readability text body".data,
      images := [], source := "readability".data, excerpt := [],
      author := [], date := [] } rfl

end Crawler

namespace Crawler

/-! Facts about the marker token. -/

theorem markerToken_eq (j : Nat) :
    markerToken j = '[' :: ("IMAGE_PLACEHOLDER_".data ++ (natChars j ++ [']'])) := by
  unfold markerToken
  simp

theorem markerToken_chars {c : Char} {j : Nat} (h : c ∈ markerToken j) :
    pyIsSpace c = false := by
  rw [markerToken_eq] at h
  rcases List.mem_cons.mp h with rfl | h
  · decide
  · rcases List.mem_append.mp h with h | h
    · have hall : ∀ x ∈ "IMAGE_PLACEHOLDER_".data, pyIsSpace x = false := by
        decide
      exact hall c h
    · rcases List.mem_append.mp h with h | h
      · exact (isDigit_facts (natChars_digits c h)).2.2.2.1
      · rcases List.mem_singleton.mp h with rfl
        decide

theorem markerToken_ne_nil (j : Nat) : markerToken j ≠ [] := by
  rw [markerToken_eq]
  intro h
  cases h

theorem nl_not_mem_markerToken {j : Nat} : '\n' ∉ markerToken j := by
  intro h
  have := markerToken_chars h
  rw [pyIsSpace_nl] at this
  cases this

theorem bracket_not_mem_tail {j : Nat} :
    '[' ∉ "IMAGE_PLACEHOLDER_".data ++ (natChars j ++ [']']) := by
  intro h
  rcases List.mem_append.mp h with h | h
  · revert h
    decide
  · rcases List.mem_append.mp h with h | h
    · exact (isDigit_facts (natChars_digits _ h)).1 rfl
    · rcases List.mem_singleton.mp h with h
      cases h

/-- A marker token is an infix of another only when the indices agree. -/
theorem markerToken_infix_inj {n m : Nat}
    (h : markerToken n <:+: markerToken m) : n = m := by
  rcases h with ⟨u, v, huv⟩
  cases u with
  | cons u0 u' =>
    exfalso
    rw [markerToken_eq m, List.cons_append] at huv
    have h2 := (List.cons.inj huv).2
    apply bracket_not_mem_tail (j := m)
    rw [← h2]
    have hm : '[' ∈ markerToken n := by
      rw [markerToken_eq]
      exact List.mem_cons_self _ _
    exact List.mem_append.mpr (Or.inl (List.mem_append.mpr (Or.inr hm)))
  | nil =>
    rw [List.nil_append] at huv
    rw [markerToken_eq n, markerToken_eq m, List.cons_append] at huv
    have huv1 : ("IMAGE_PLACEHOLDER_".data ++ (natChars n ++ [']'])) ++ v
        = "IMAGE_PLACEHOLDER_".data ++ (natChars m ++ [']']) :=
      (List.cons.inj huv).2
    rw [List.append_assoc] at huv1
    have hmid : (natChars n ++ [']']) ++ v = natChars m ++ [']'] :=
      List.append_cancel_left huv1
    rw [List.append_assoc, List.singleton_append] at hmid
    have hdig : ∀ (p w : List Char), (∀ c ∈ p, c.isDigit = true) →
        (p ++ ']' :: w).takeWhile (fun c => c ≠ ']') = p := by
      intro p w hp
      rw [takeWhile_append_all (fun c hc => by
        simpa using (isDigit_facts (hp c hc)).2.1)]
      rw [List.takeWhile_cons, if_neg (by simp)]
      simp
    have h1 := hdig (natChars n) v (fun c hc => natChars_digits c hc)
    have h2 : (natChars m ++ [']']).takeWhile (fun c => c ≠ ']')
        = natChars m := by
      have := hdig (natChars m) [] (fun c hc => natChars_digits c hc)
      simpa using this
    apply natChars_inj
    rw [← h1, hmid]
    exact h2

end Crawler

namespace Crawler

/-- The indices (in enumeration order over all image elements) of the
images with a resolvable source. -/
def srcIdxs : List Node → Nat → List Nat
  | [], _ => []
  | Node.text _ :: rest, i => srcIdxs rest i
  | Node.img im :: rest, i =>
    match effSrc im with
    | some _ => i :: srcIdxs rest (i + 1)
    | none => srcIdxs rest (i + 1)

theorem processNodes_ids (uj : List Char → List Char → List Char)
    (base : List Char) :
    ∀ (nodes : List Node) (i : Nat),
      (processNodes uj base nodes i).2.map (fun im => im.id)
        = (srcIdxs nodes i).map (fun j => "img_".data ++ natChars j) := by
  intro nodes
  induction nodes with
  | nil => intro i; rfl
  | cons node rest ih =>
    intro i
    cases node with
    | text s => exact ih i
    | img im =>
      cases hsrc : effSrc im with
      | some src =>
        have heq : (processNodes uj base (Node.img im :: rest) i).2.map
              (fun im => im.id)
            = ("img_".data ++ natChars i)
              :: ((processNodes uj base rest (i + 1)).2.map
                (fun im => im.id)) := by
          simp only [processNodes, hsrc, List.map_cons]
        rw [heq, ih (i + 1),
          show srcIdxs (Node.img im :: rest) i = i :: srcIdxs rest (i + 1)
            from by simp only [srcIdxs, hsrc],
          List.map_cons]
      | none =>
        have heq : (processNodes uj base (Node.img im :: rest) i).2
            = (processNodes uj base rest (i + 1)).2 := by
          simp only [processNodes, hsrc]
        rw [heq,
          show srcIdxs (Node.img im :: rest) i = srcIdxs rest (i + 1)
            from by simp only [srcIdxs, hsrc]]
        exact ih (i + 1)

theorem srcIdxs_bound :
    ∀ (nodes : List Node) (i : Nat), ∀ j ∈ srcIdxs nodes i, i ≤ j := by
  intro nodes
  induction nodes with
  | nil => intro i j hj; cases hj
  | cons node rest ih =>
    intro i j hj
    cases node with
    | text s => exact ih i j hj
    | img im =>
      cases hsrc : effSrc im with
      | some src =>
        rw [show srcIdxs (Node.img im :: rest) i = i :: srcIdxs rest (i + 1)
          from by simp only [srcIdxs, hsrc]] at hj
        rcases List.mem_cons.mp hj with rfl | hj'
        · exact le_refl j
        · exact Nat.le_of_lt (Nat.lt_of_lt_of_le (Nat.lt_succ_self i)
            (ih (i + 1) j hj'))
      | none =>
        rw [show srcIdxs (Node.img im :: rest) i = srcIdxs rest (i + 1)
          from by simp only [srcIdxs, hsrc]] at hj
        exact Nat.le_of_lt (Nat.lt_of_lt_of_le (Nat.lt_succ_self i)
          (ih (i + 1) j hj))

theorem srcIdxs_nodup :
    ∀ (nodes : List Node) (i : Nat), (srcIdxs nodes i).Nodup := by
  intro nodes
  induction nodes with
  | nil => intro i; exact List.nodup_nil
  | cons node rest ih =>
    intro i
    cases node with
    | text s => exact ih i
    | img im =>
      cases hsrc : effSrc im with
      | some src =>
        rw [show srcIdxs (Node.img im :: rest) i = i :: srcIdxs rest (i + 1)
          from by simp only [srcIdxs, hsrc]]
        rw [List.nodup_cons]
        refine ⟨?_, ih (i + 1)⟩
        intro hmem
        have := srcIdxs_bound rest (i + 1) i hmem
        omega
      | none =>
        rw [show srcIdxs (Node.img im :: rest) i = srcIdxs rest (i + 1)
          from by simp only [srcIdxs, hsrc]]
        exact ih (i + 1)

/-- A marker token survives `get_text`'s per-string strip. -/
theorem pyStrip_markerToken (j : Nat) : pyStrip (markerToken j) = markerToken j := by
  apply pyStrip_of_ends
  · intro x hx
    rw [markerToken_eq] at hx
    cases hx
    decide
  · intro x hx
    apply markerToken_chars (j := j)
    unfold markerToken at hx
    rw [List.append_assoc, List.getLast?_append] at hx
    have : (natChars j ++ "]".data).getLast? = some ']' := by
      rw [List.getLast?_append]
      rfl
    rw [this] at hx
    cases hx
    rw [markerToken_eq]
    right
    exact List.mem_append.mpr (Or.inr (List.mem_append.mpr (Or.inr (by simp))))

/-- The visible-text piece of a marker node. -/
theorem pieceOf_marker (j : Nat) :
    pieceOf (Node.text (markerToken j)) = some (markerToken j) := by
  show (if pyStrip (markerToken j) = [] then none
      else some (pyStrip (markerToken j))) = some (markerToken j)
  rw [pyStrip_markerToken]
  exact if_neg (markerToken_ne_nil j)

theorem processNodes_piece_shape (uj : List Char → List Char → List Char)
    (base : List Char) :
    ∀ (nodes : List Node) (i : Nat),
      ∀ p ∈ ((processNodes uj base nodes i).1).filterMap pieceOf,
        (∃ j ∈ srcIdxs nodes i, p = markerToken j) ∨
          (∃ s, Node.text s ∈ nodes ∧ p = pyStrip s) := by
  intro nodes
  induction nodes with
  | nil => intro i p hp; cases hp
  | cons node rest ih =>
    intro i p hp
    cases node with
    | text s =>
      have hp' : p ∈ (Node.text s :: (processNodes uj base rest i).1).filterMap
          pieceOf := hp
      rw [List.filterMap_cons] at hp'
      rcases hpc : pieceOf (Node.text s) with _ | q
      · rw [hpc] at hp'
        rcases ih i p hp' with ⟨j, hj, hpj⟩ | ⟨s', hs', hps'⟩
        · exact Or.inl ⟨j, hj, hpj⟩
        · exact Or.inr ⟨s', List.mem_cons_of_mem _ hs', hps'⟩
      · rw [hpc] at hp'
        rcases List.mem_cons.mp hp' with rfl | hp''
        · right
          refine ⟨s, List.mem_cons_self _ _, ?_⟩
          have hpc' : (if pyStrip s = [] then none else some (pyStrip s))
              = some p := hpc
          by_cases hq : pyStrip s = []
          · rw [if_pos hq] at hpc'
            cases hpc'
          · rw [if_neg hq] at hpc'
            exact (Option.some.inj hpc').symm
        · rcases ih i p hp'' with ⟨j, hj, hpj⟩ | ⟨s', hs', hps'⟩
          · exact Or.inl ⟨j, hj, hpj⟩
          · exact Or.inr ⟨s', List.mem_cons_of_mem _ hs', hps'⟩
    | img im =>
      cases hsrc : effSrc im with
      | some src =>
        have hp' : p ∈ (Node.text (markerToken i)
            :: (processNodes uj base rest (i + 1)).1).filterMap pieceOf := by
          have heq : (processNodes uj base (Node.img im :: rest) i).1
              = Node.text (markerToken i)
                :: (processNodes uj base rest (i + 1)).1 := by
            simp only [processNodes, hsrc]
          rwa [heq] at hp
        rw [List.filterMap_cons, pieceOf_marker] at hp'
        rcases List.mem_cons.mp hp' with rfl | hp''
        · refine Or.inl ⟨i, ?_, rfl⟩
          rw [show srcIdxs (Node.img im :: rest) i = i :: srcIdxs rest (i + 1)
            from by simp only [srcIdxs, hsrc]]
          exact List.mem_cons_self _ _
        · rcases ih (i + 1) p hp'' with ⟨j, hj, hpj⟩ | ⟨s', hs', hps'⟩
          · refine Or.inl ⟨j, ?_, hpj⟩
            rw [show srcIdxs (Node.img im :: rest) i
              = i :: srcIdxs rest (i + 1) from by simp only [srcIdxs, hsrc]]
            exact List.mem_cons_of_mem _ hj
          · exact Or.inr ⟨s', List.mem_cons_of_mem _ hs', hps'⟩
      | none =>
        have hp' : p ∈ (Node.img im
            :: (processNodes uj base rest (i + 1)).1).filterMap pieceOf := by
          have heq : (processNodes uj base (Node.img im :: rest) i).1
              = Node.img im :: (processNodes uj base rest (i + 1)).1 := by
            simp only [processNodes, hsrc]
          rwa [heq] at hp
        rw [List.filterMap_cons] at hp'
        rcases ih (i + 1) p hp' with ⟨j, hj, hpj⟩ | ⟨s', hs', hps'⟩
        · refine Or.inl ⟨j, ?_, hpj⟩
          rw [show srcIdxs (Node.img im :: rest) i = srcIdxs rest (i + 1)
            from by simp only [srcIdxs, hsrc]]
          exact hj
        · exact Or.inr ⟨s', List.mem_cons_of_mem _ hs', hps'⟩

theorem processNodes_piece_mem (uj : List Char → List Char → List Char)
    (base : List Char) :
    ∀ (nodes : List Node) (i : Nat), ∀ j ∈ srcIdxs nodes i,
      markerToken j ∈ ((processNodes uj base nodes i).1).filterMap pieceOf := by
  intro nodes
  induction nodes with
  | nil => intro i j hj; cases hj
  | cons node rest ih =>
    intro i j hj
    cases node with
    | text s =>
      show markerToken j ∈ (Node.text s
          :: (processNodes uj base rest i).1).filterMap pieceOf
      rw [List.filterMap_cons]
      cases hpc : pieceOf (Node.text s) with
      | none => exact ih i j hj
      | some q => exact List.mem_cons_of_mem _ (ih i j hj)
    | img im =>
      cases hsrc : effSrc im with
      | some src =>
        rw [show srcIdxs (Node.img im :: rest) i = i :: srcIdxs rest (i + 1)
          from by simp only [srcIdxs, hsrc]] at hj
        have heq : (processNodes uj base (Node.img im :: rest) i).1
            = Node.text (markerToken i)
              :: (processNodes uj base rest (i + 1)).1 := by
          simp only [processNodes, hsrc]
        rw [heq, List.filterMap_cons, pieceOf_marker]
        rcases List.mem_cons.mp hj with rfl | hj'
        · exact List.mem_cons_self _ _
        · exact List.mem_cons_of_mem _ (ih (i + 1) j hj')
      | none =>
        rw [show srcIdxs (Node.img im :: rest) i = srcIdxs rest (i + 1)
          from by simp only [srcIdxs, hsrc]] at hj
        have heq : (processNodes uj base (Node.img im :: rest) i).1
            = Node.img im :: (processNodes uj base rest (i + 1)).1 := by
          simp only [processNodes, hsrc]
        rw [heq, List.filterMap_cons]
        exact ih (i + 1) j hj

/-- Every piece is non-empty. -/
theorem piece_ne_nil {nodes : List Node} :
    ∀ p ∈ nodes.filterMap pieceOf, p ≠ [] := by
  intro p hp
  rcases List.mem_filterMap.mp hp with ⟨node, _, hf⟩
  cases node with
  | text s =>
    have hf' : (if pyStrip s = [] then none else some (pyStrip s))
        = some p := hf
    by_cases hq : pyStrip s = []
    · rw [if_pos hq] at hf'
      cases hf'
    · rw [if_neg hq] at hf'
      rw [← Option.some.inj hf']
      exact hq
  | img im => cases hf

/-- Every piece has non-whitespace ends (it is a stripped string). -/
theorem piece_ends {nodes : List Node} :
    ∀ p ∈ nodes.filterMap pieceOf,
      (∀ x, p.head? = some x → pyIsSpace x = false) ∧
        (∀ x, p.getLast? = some x → pyIsSpace x = false) := by
  intro p hp
  rcases List.mem_filterMap.mp hp with ⟨node, _, hf⟩
  cases node with
  | text s =>
    have hf' : (if pyStrip s = [] then none else some (pyStrip s))
        = some p := hf
    by_cases hq : pyStrip s = []
    · rw [if_pos hq] at hf'
      cases hf'
    · rw [if_neg hq] at hf'
      rw [← Option.some.inj hf']
      exact ⟨(pyStrip_ends s).1, (pyStrip_ends s).2⟩
  | img im => cases hf

end Crawler

namespace Crawler

/-! Splitting `sub1` across an append boundary whose left part ends in a
non-whitespace character: no `\n\s*\n` match can span such a boundary. -/

theorem getLast?_cons_of_ne_nil {c : Char} {l : List Char} (h : l ≠ []) :
    (c :: l).getLast? = l.getLast? := by
  cases l with
  | nil => exact absurd rfl h
  | cons d t => exact List.getLast?_cons_cons

theorem mem_of_getLast?_eq {l : List Char} {y : Char}
    (h : l.getLast? = some y) : y ∈ l := by
  rcases List.getLast?_eq_some_iff.mp h with ⟨ys, rfl⟩
  exact List.mem_append.mpr (Or.inr (List.mem_singleton.mpr rfl))

theorem sub1_ne_nil {l : List Char} (h : l ≠ []) : sub1 l ≠ [] := by
  cases l with
  | nil => exact absurd rfl h
  | cons c rest =>
    by_cases hc : c = '\n'
    · subst hc
      by_cases hm : '\n' ∈ rest.takeWhile pyIsSpace
      · rw [sub1_cons_match hm]; simp
      · rw [sub1_cons_nomatch hm]; simp
    · rw [sub1_cons_other hc]; simp

theorem sub2_ne_nil {l : List Char} (h : l ≠ []) : sub2 l ≠ [] := by
  cases l with
  | nil => exact absurd rfl h
  | cons c rest =>
    by_cases hc : isHws c = true
    · rw [sub2_cons_hws hc]; simp
    · rw [sub2_cons_other (by simpa using hc)]; simp

theorem sub1_append_last_core :
    ∀ (n : Nat) (p q : List Char), p.length ≤ n →
      (∀ x, p.getLast? = some x → pyIsSpace x = false) →
      sub1 (p ++ q) = sub1 p ++ sub1 q := by
  intro n
  induction n with
  | zero =>
    intro p q hlen _
    have hp : p = [] := List.eq_nil_of_length_eq_zero (Nat.le_zero.mp hlen)
    rw [hp, sub1_nil, List.nil_append, List.nil_append]
  | succ n ih =>
    intro p q hlen hlast
    cases p with
    | nil => rw [sub1_nil, List.nil_append, List.nil_append]
    | cons c restp =>
      have hlenr : restp.length ≤ n := by
        rw [List.length_cons] at hlen
        omega
      by_cases hc : c = '\n'
      · subst hc
        have hne : restp ≠ [] := by
          intro h0
          subst h0
          have h1 := hlast '\n' (by simp)
          rw [pyIsSpace_nl] at h1
          cases h1
        have hlast' : ∀ x, restp.getLast? = some x → pyIsSpace x = false := by
          intro x hx
          exact hlast x (by rw [getLast?_cons_of_ne_nil hne]; exact hx)
        obtain ⟨y, hy⟩ : ∃ y, restp.getLast? = some y := by
          cases hgl : restp.getLast? with
          | none => exact absurd (List.getLast?_eq_none_iff.mp hgl) hne
          | some y => exact ⟨y, rfl⟩
        have hynws : pyIsSpace y = false := hlast' y hy
        have hdne : restp.dropWhile pyIsSpace ≠ [] := by
          intro hdnil
          have hall := List.dropWhile_eq_nil_iff.mp hdnil
          rw [hall y (mem_of_getLast?_eq hy)] at hynws
          cases hynws
        have htke : restp.takeWhile pyIsSpace ≠ restp := by
          intro heq
          apply hdne
          have hsplit := List.takeWhile_append_dropWhile pyIsSpace restp
          rw [heq] at hsplit
          have hl0 := congrArg List.length hsplit
          rw [List.length_append] at hl0
          exact List.eq_nil_of_length_eq_zero (by omega)
        have hws : (restp ++ q).takeWhile pyIsSpace
            = restp.takeWhile pyIsSpace := takeWhile_append_stop htke
        have hdw : (restp ++ q).dropWhile pyIsSpace
            = restp.dropWhile pyIsSpace ++ q := dropWhile_append_stop hdne
        by_cases hm : '\n' ∈ restp.takeWhile pyIsSpace
        · have hmq : '\n' ∈ (restp ++ q).takeWhile pyIsSpace := by
            rw [hws]; exact hm
          rw [List.cons_append, sub1_cons_match hmq, sub1_cons_match hm,
            hws, hdw, ← List.append_assoc]
          have harg : (afterLastNl (restp.takeWhile pyIsSpace)
              ++ restp.dropWhile pyIsSpace).length ≤ n := by
            have h1 := afterLastNl_length_lt (restp.takeWhile pyIsSpace) hm
            have h2 : (restp.takeWhile pyIsSpace).length
                + (restp.dropWhile pyIsSpace).length = restp.length := by
              rw [← List.length_append, List.takeWhile_append_dropWhile]
            rw [List.length_append]
            omega
          have hlasta : ∀ x,
              (afterLastNl (restp.takeWhile pyIsSpace)
                ++ restp.dropWhile pyIsSpace).getLast? = some x →
                pyIsSpace x = false := by
            intro x hx
            rw [List.getLast?_append_of_ne_nil _ hdne] at hx
            have hdl : (restp.dropWhile pyIsSpace).getLast?
                = restp.getLast? := by
              conv_rhs =>
                rw [← List.takeWhile_append_dropWhile pyIsSpace restp]
              rw [List.getLast?_append_of_ne_nil _ hdne]
            rw [hdl, hy] at hx
            cases hx
            exact hynws
          rw [ih _ q harg hlasta]
          simp only [List.cons_append]
        · have hmq : '\n' ∉ (restp ++ q).takeWhile pyIsSpace := by
            rw [hws]; exact hm
          rw [List.cons_append, sub1_cons_nomatch hmq, sub1_cons_nomatch hm,
            ih restp q hlenr hlast']
          simp only [List.cons_append]
      · have hlast' : ∀ x, restp.getLast? = some x → pyIsSpace x = false := by
          cases restp with
          | nil => intro x hx; cases hx
          | cons d t =>
            intro x hx
            exact hlast x (by rw [List.getLast?_cons_cons]; exact hx)
        rw [List.cons_append, sub1_cons_other hc, sub1_cons_other hc,
          ih restp q hlenr hlast']
        simp only [List.cons_append]

/-- `sub1` distributes over an append whose left part ends in a
non-whitespace character. -/
theorem sub1_append_last {p q : List Char}
    (h : ∀ x, p.getLast? = some x → pyIsSpace x = false) :
    sub1 (p ++ q) = sub1 p ++ sub1 q :=
  sub1_append_last_core p.length p q (le_refl _) h

end Crawler

namespace Crawler

/-! Structure of `'\n'.join` of pieces. -/

theorem joinPieces_cons (p : List Char) {ps : List (List Char)} (h : ps ≠ []) :
    joinPieces (p :: ps) = p ++ '\n' :: joinPieces ps := by
  cases ps with
  | nil => exact absurd rfl h
  | cons q ps' => rfl

theorem joinPieces_head_prop {ps : List (List Char)}
    (hne : ∀ p ∈ ps, p ≠ [])
    (hh : ∀ p ∈ ps, ∀ x, p.head? = some x → pyIsSpace x = false) :
    ∀ x, (joinPieces ps).head? = some x → pyIsSpace x = false := by
  cases ps with
  | nil => intro x hx; cases hx
  | cons p ps' =>
    have hp := hne p (List.mem_cons_self _ _)
    have hcons : (joinPieces (p :: ps')).head? = p.head? := by
      cases ps' with
      | nil => rfl
      | cons q ps'' =>
        rw [joinPieces_cons p (by simp)]
        cases p with
        | nil => exact absurd rfl hp
        | cons a t => rfl
    intro x hx
    rw [hcons] at hx
    exact hh p (List.mem_cons_self _ _) x hx

/-- `sub1` acts piecewise on a newline-join of non-empty pieces with
non-whitespace ends. -/
theorem sub1_joinPieces :
    ∀ {ps : List (List Char)}, (∀ p ∈ ps, p ≠ []) →
      (∀ p ∈ ps, ∀ x, p.head? = some x → pyIsSpace x = false) →
      (∀ p ∈ ps, ∀ x, p.getLast? = some x → pyIsSpace x = false) →
      sub1 (joinPieces ps) = joinPieces (ps.map sub1) := by
  intro ps
  induction ps with
  | nil =>
    intro _ _ _
    show sub1 [] = ([] : List Char)
    exact sub1_nil
  | cons p ps' ih =>
    intro hne hh hl
    cases ps' with
    | nil => rfl
    | cons q ps'' =>
      rw [joinPieces_cons p (by simp)]
      rw [sub1_append_last (hl p (List.mem_cons_self _ _))]
      have htw : (joinPieces (q :: ps'')).takeWhile pyIsSpace = [] := by
        cases hJ : joinPieces (q :: ps'') with
        | nil => rfl
        | cons a t =>
          have hhead := joinPieces_head_prop
            (fun r hr => hne r (List.mem_cons_of_mem _ hr))
            (fun r hr => hh r (List.mem_cons_of_mem _ hr)) a (by rw [hJ]; rfl)
          rw [List.takeWhile_cons, if_neg (by simp [hhead])]
      have hnl : '\n' ∉ (joinPieces (q :: ps'')).takeWhile pyIsSpace := by
        rw [htw]
        simp
      rw [sub1_cons_nomatch hnl]
      rw [ih (fun r hr => hne r (List.mem_cons_of_mem _ hr))
        (fun r hr => hh r (List.mem_cons_of_mem _ hr))
        (fun r hr => hl r (List.mem_cons_of_mem _ hr))]
      simp only [List.map_cons]
      rw [joinPieces_cons (sub1 p) (by simp)]

/-- `sub2` acts piecewise on any newline-join (a `[ \t]+` run never crosses
a `'\n'` separator). -/
theorem sub2_joinPieces :
    ∀ (ps : List (List Char)),
      sub2 (joinPieces ps) = joinPieces (ps.map sub2) := by
  intro ps
  induction ps with
  | nil =>
    show sub2 [] = ([] : List Char)
    exact sub2_nil
  | cons p ps' ih =>
    cases ps' with
    | nil => rfl
    | cons q ps'' =>
      rw [joinPieces_cons p (by simp)]
      rw [sub2_append_bd (show headIsHws ('\n' :: joinPieces (q :: ps''))
          = false from rfl) p,
        sub2_cons_other (by decide), ih]
      simp only [List.map_cons]
      rw [joinPieces_cons (sub2 p) (by simp)]

end Crawler

namespace Crawler

/-- `str.strip()` removes a whitespace run from each end and keeps the
core. -/
theorem pyStrip_decomp (l : List Char) :
    ∃ t u, l = t ++ pyStrip l ++ u ∧
      (∀ c ∈ t, pyIsSpace c = true) ∧ (∀ c ∈ u, pyIsSpace c = true) := by
  refine ⟨l.takeWhile pyIsSpace,
    ((l.dropWhile pyIsSpace).reverse.takeWhile pyIsSpace).reverse, ?_, ?_, ?_⟩
  · unfold pyStrip
    have h1 : l.dropWhile pyIsSpace
        = ((l.dropWhile pyIsSpace).reverse.dropWhile pyIsSpace).reverse
          ++ ((l.dropWhile pyIsSpace).reverse.takeWhile pyIsSpace).reverse := by
      rw [← List.reverse_append, List.takeWhile_append_dropWhile,
        List.reverse_reverse]
    conv_lhs => rw [← List.takeWhile_append_dropWhile pyIsSpace l, h1]
    rw [List.append_assoc]
  · intro c hc
    exact List.mem_takeWhile_imp hc
  · intro c hc
    exact List.mem_takeWhile_imp (List.mem_reverse.mp hc)

/-- An occurrence of a pattern none of whose characters satisfy `P` cannot
start inside a leading region all of whose characters satisfy `P`. -/
theorem infix_trim_left {P : Char → Bool} {m b : List Char}
    (hm : m ≠ []) (hmP : ∀ c ∈ m, P c = false) :
    ∀ a : List Char, (∀ c ∈ a, P c = true) → m <:+: a ++ b → m <:+: b := by
  intro a
  induction a with
  | nil => intro _ h; exact h
  | cons x a' ih =>
    intro ha h
    rw [List.cons_append, List.infix_cons_iff] at h
    rcases h with hpre | hinf
    · exfalso
      cases m with
      | nil => exact hm rfl
      | cons y m' =>
        obtain ⟨t, ht⟩ := hpre
        rw [List.cons_append] at ht
        have hyx : y = x := (List.cons.inj ht).1
        have hy := hmP y (List.mem_cons_self _ _)
        rw [hyx, ha x (List.mem_cons_self _ _)] at hy
        cases hy
    · exact ih (fun c hc => ha c (List.mem_cons_of_mem _ hc)) hinf

theorem infix_trim_right {P : Char → Bool} {m a : List Char}
    (hm : m ≠ []) (hmP : ∀ c ∈ m, P c = false) :
    ∀ u : List Char, (∀ c ∈ u, P c = true) → m <:+: a ++ u → m <:+: a := by
  intro u hu h
  have hrev : m.reverse <:+: u.reverse ++ a.reverse := by
    rw [← List.reverse_append]
    exact List.reverse_infix.mpr h
  have h2 : m.reverse <:+: a.reverse :=
    infix_trim_left (by simpa using hm)
      (fun c hc => hmP c (List.mem_reverse.mp hc)) u.reverse
      (fun c hc => hu c (List.mem_reverse.mp hc)) hrev
  exact List.reverse_infix.mp h2

theorem pre_avoid_sep {b : List Char} {c : Char} :
    ∀ (a m : List Char), c ∉ m → m <+: a ++ c :: b → m <+: a := by
  intro a
  induction a with
  | nil =>
    intro m hc h
    cases m with
    | nil => exact List.nil_prefix
    | cons y m' =>
      obtain ⟨t, ht⟩ := h
      rw [List.cons_append, List.nil_append] at ht
      exact absurd (((List.cons.inj ht).1) ▸ List.mem_cons_self y m') hc
  | cons x a' ih =>
    intro m hc h
    cases m with
    | nil => exact List.nil_prefix
    | cons y m' =>
      obtain ⟨t, ht⟩ := h
      rw [List.cons_append, List.cons_append] at ht
      have hyx : y = x := (List.cons.inj ht).1
      have h2 : m' <+: a' ++ c :: b := ⟨t, (List.cons.inj ht).2⟩
      obtain ⟨t', ht'⟩ := ih m' (fun hc' => hc (List.mem_cons_of_mem _ hc')) h2
      exact ⟨t', by rw [List.cons_append, ht', hyx]⟩

/-- An infix that avoids a separator character lies entirely on one side of
it. -/
theorem infix_split_sep {m b : List Char} {c : Char} (hc : c ∉ m) :
    ∀ a : List Char, m <:+: a ++ c :: b → m <:+: a ∨ m <:+: b := by
  intro a
  induction a with
  | nil =>
    intro h
    rw [List.nil_append, List.infix_cons_iff] at h
    rcases h with hpre | hinf
    · cases m with
      | nil => exact Or.inl List.nil_infix
      | cons y m' =>
        obtain ⟨t, ht⟩ := hpre
        rw [List.cons_append] at ht
        exact absurd (((List.cons.inj ht).1) ▸ List.mem_cons_self y m') hc
    · exact Or.inr hinf
  | cons x a' ih =>
    intro h
    rw [List.cons_append, List.infix_cons_iff] at h
    rcases h with hpre | hinf
    · left
      have h2 : m <+: (x :: a') ++ c :: b := by rwa [List.cons_append]
      obtain ⟨t, ht⟩ := pre_avoid_sep (x :: a') m hc h2
      exact ⟨[], t, by rw [List.nil_append, ht]⟩
    · rcases ih hinf with h1 | h2
      · exact Or.inl (List.infix_cons_iff.mpr (Or.inr h1))
      · exact Or.inr h2

theorem joinPieces_infix_split {m : List Char} (hm : m ≠ [])
    (hnl : '\n' ∉ m) :
    ∀ qs : List (List Char), m <:+: joinPieces qs → ∃ q ∈ qs, m <:+: q := by
  intro qs
  induction qs with
  | nil =>
    intro h
    rw [show joinPieces [] = ([] : List Char) from rfl] at h
    exact absurd (List.eq_nil_of_infix_nil h) hm
  | cons q qs' ih =>
    cases qs' with
    | nil => intro h; exact ⟨q, List.mem_cons_self _ _, h⟩
    | cons r qs'' =>
      intro h
      rw [joinPieces_cons q (by simp)] at h
      rcases infix_split_sep hnl q h with h1 | h2
      · exact ⟨q, List.mem_cons_self _ _, h1⟩
      · obtain ⟨w, hw, hmw⟩ := ih h2
        exact ⟨w, List.mem_cons_of_mem _ hw, hmw⟩

theorem mem_infix_joinPieces :
    ∀ {qs : List (List Char)} {q : List Char}, q ∈ qs →
      q <:+: joinPieces qs := by
  intro qs
  induction qs with
  | nil => intro q hq; cases hq
  | cons p qs' ih =>
    intro q hq
    cases qs' with
    | nil =>
      rcases List.mem_cons.mp hq with rfl | h0
      · exact List.infix_rfl
      · cases h0
    | cons r qs'' =>
      rw [joinPieces_cons p (by simp)]
      rcases List.mem_cons.mp hq with rfl | h0
      · exact ⟨[], '\n' :: joinPieces (r :: qs''), by simp⟩
      · exact (ih h0).trans ⟨p ++ ['\n'], [], by simp⟩

/-! The marker token is a fixed point of both normalization passes. -/

theorem hasBad1_of_no_nl {l : List Char} (h : '\n' ∉ l) :
    hasBad1 l = false := by
  induction l with
  | nil => rfl
  | cons c rest ih =>
    rw [hasBad1_cons, ih (fun hr => h (List.mem_cons_of_mem _ hr))]
    have hc : (c = '\n' : Bool) = false := by
      simp only [decide_eq_false_iff_not]
      intro he
      exact h (he ▸ List.mem_cons_self _ _)
    rw [hc]
    simp

theorem hasBad2_of_no_hws {l : List Char} (h : ∀ c ∈ l, isHws c = false) :
    hasBad2 l = false := by
  induction l with
  | nil => rfl
  | cons c rest ih =>
    rw [hasBad2_cons, ih (fun d hd => h d (List.mem_cons_of_mem _ hd))]
    have h1 : (c = '\t' : Bool) = false := by
      simp only [decide_eq_false_iff_not]
      intro he
      have h2 := h c (List.mem_cons_self _ _)
      rw [he] at h2
      exact absurd h2 (by decide)
    rw [h1, h c (List.mem_cons_self _ _)]
    simp

theorem sub1_markerToken (j : Nat) : sub1 (markerToken j) = markerToken j :=
  sub1_fix (hasBad1_of_no_nl nl_not_mem_markerToken)

theorem sub2_markerToken (j : Nat) : sub2 (markerToken j) = markerToken j :=
  sub2_fix (hasBad2_of_no_hws (fun c hc => by
    have h1 := markerToken_chars hc
    by_cases h2 : isHws c = true
    · rw [isHws_pyIsSpace h2] at h1
      cases h1
    · simpa using h2))

end Crawler

namespace Crawler

theorem mem_pyStrip {l : List Char} {c : Char} (h : c ∈ pyStrip l) :
    c ∈ l := by
  obtain ⟨t, u, hdec, _, _⟩ := pyStrip_decomp l
  rw [hdec]
  exact List.mem_append.mpr (Or.inl (List.mem_append.mpr (Or.inr h)))

/-- Every enumeration index of an image with a resolvable source yields a
marker token occurrence in the cleaned extracted content. -/
theorem srcIdx_marker_infix (uj : List Char → List Char → List Char)
    (region : List Node) (base : List Char)
    (hcm : (extract_content_with_image_markers uj region base).1 ≠ [])
    (n : Nat) (hn : n ∈ srcIdxs region 0) :
    markerToken n <:+:
      clean_content (extract_content_with_image_markers uj region base).1 := by
  set ps := ((processNodes uj base region 0).1).filterMap pieceOf with hps
  set qs := (ps.map sub1).map sub2 with hqs
  have hJ : (extract_content_with_image_markers uj region base).1
      = joinPieces ps := rfl
  have hpne : ∀ p ∈ ps, p ≠ [] := by
    rw [hps]
    exact fun p hp => piece_ne_nil p hp
  have hpH : ∀ p ∈ ps, ∀ x, p.head? = some x → pyIsSpace x = false :=
    fun p hp => (piece_ends p hp).1
  have hpL : ∀ p ∈ ps, ∀ x, p.getLast? = some x → pyIsSpace x = false :=
    fun p hp => (piece_ends p hp).2
  have hfac : clean_content
        (extract_content_with_image_markers uj region base).1
      = pyStrip (joinPieces qs) := by
    rw [hJ]
    unfold clean_content
    rw [if_neg (by rw [← hJ]; exact hcm)]
    rw [sub1_joinPieces hpne hpH hpL, sub2_joinPieces]
  obtain ⟨t, u, hdec, ht, hu⟩ := pyStrip_decomp (joinPieces qs)
  have hmne : markerToken n ≠ [] := markerToken_ne_nil n
  have hmP : ∀ c ∈ markerToken n, pyIsSpace c = false :=
    fun c hc => markerToken_chars hc
  have hmem := processNodes_piece_mem uj base region 0 n hn
  have h1 : markerToken n ∈ ps.map sub1 := by
    rw [← sub1_markerToken n]
    exact List.mem_map_of_mem _ hmem
  have h2 : markerToken n ∈ qs := by
    rw [hqs, ← sub2_markerToken n]
    exact List.mem_map_of_mem _ h1
  have h3 := mem_infix_joinPieces h2
  rw [hdec, List.append_assoc] at h3
  have h4 := infix_trim_left hmne hmP t ht h3
  have h5 := infix_trim_right hmne hmP u hu h4
  rw [hfac]
  exact h5

/-- Marker occurrence in the cleaned extracted content: for a region whose
text nodes contain no `'['`, the cleaned text of
`extract_content_with_image_markers` contains the `n`-th marker token
exactly when `n` is the enumeration index of an image with a resolvable
source. -/
theorem marker_in_clean_content (uj : List Char → List Char → List Char)
    (region : List Node) (base : List Char)
    (hbr : ∀ s, Node.text s ∈ region → '[' ∉ s)
    (hcm : (extract_content_with_image_markers uj region base).1 ≠ [])
    (n : Nat) :
    (markerToken n <:+:
        clean_content (extract_content_with_image_markers uj region base).1)
      ↔ n ∈ srcIdxs region 0 := by
  set ps := ((processNodes uj base region 0).1).filterMap pieceOf with hps
  set qs := (ps.map sub1).map sub2 with hqs
  have hJ : (extract_content_with_image_markers uj region base).1
      = joinPieces ps := rfl
  have hpne : ∀ p ∈ ps, p ≠ [] := by
    rw [hps]
    exact fun p hp => piece_ne_nil p hp
  have hpH : ∀ p ∈ ps, ∀ x, p.head? = some x → pyIsSpace x = false :=
    fun p hp => (piece_ends p hp).1
  have hpL : ∀ p ∈ ps, ∀ x, p.getLast? = some x → pyIsSpace x = false :=
    fun p hp => (piece_ends p hp).2
  have hfac : clean_content
        (extract_content_with_image_markers uj region base).1
      = pyStrip (joinPieces qs) := by
    rw [hJ]
    unfold clean_content
    rw [if_neg (by rw [← hJ]; exact hcm)]
    rw [sub1_joinPieces hpne hpH hpL, sub2_joinPieces]
  obtain ⟨t, u, hdec, ht, hu⟩ := pyStrip_decomp (joinPieces qs)
  have hmne : markerToken n ≠ [] := markerToken_ne_nil n
  have hmnl : '\n' ∉ markerToken n := nl_not_mem_markerToken
  have hmP : ∀ c ∈ markerToken n, pyIsSpace c = false :=
    fun c hc => markerToken_chars hc
  constructor
  · intro h
    rw [hfac] at h
    have hsub : pyStrip (joinPieces qs) <:+: joinPieces qs := ⟨t, u, hdec.symm⟩
    obtain ⟨q, hq, hmq⟩ := joinPieces_infix_split hmne hmnl _ (h.trans hsub)
    obtain ⟨p1, hp1, hp1q⟩ := List.mem_map.mp hq
    obtain ⟨p, hp, hpp1⟩ := List.mem_map.mp hp1
    rcases processNodes_piece_shape uj base region 0 p hp with
      ⟨j, hj, hpj⟩ | ⟨s, hs, hps'⟩
    · have hqm : q = markerToken j := by
        rw [← hp1q, ← hpp1, hpj, sub1_markerToken, sub2_markerToken]
      rw [hqm] at hmq
      rw [markerToken_infix_inj hmq]
      exact hj
    · exfalso
      have hbq : '[' ∈ q :=
        hmq.sublist.subset (by rw [markerToken_eq]; exact List.mem_cons_self _ _)
      rw [← hp1q, ← hpp1, hps'] at hbq
      rcases mem_sub2 hbq with hbq1 | hbq1
      · rcases mem_sub1 hbq1 with hbq2 | hbq2
        · exact hbr s hs (mem_pyStrip hbq2)
        · cases hbq2
      · cases hbq1
  · exact srcIdx_marker_infix uj region base hcm n

end Crawler

namespace Crawler

/-- When the marker extraction yields non-empty text, a successful
trafilatura result carries that text and those images. -/
theorem traf_content_images {uj : List Char → List Char → List Char}
    {html : Html} {url : List Char} {r : ExtractResult}
    (h : extract_with_trafilatura uj html url = some r)
    (hcm : (extract_content_with_image_markers uj html.region url).1 ≠ []) :
    r.content = (extract_content_with_image_markers uj html.region url).1 ∧
      r.images
        = (extract_content_with_image_markers uj html.region url).2 := by
  unfold extract_with_trafilatura at h
  cases htr : html.traf with
  | none => rw [htr] at h; cases h
  | some data =>
    rw [htr] at h
    cases Option.some.inj h
    exact ⟨if_pos hcm, rfl⟩

/-- When the marker extraction yields non-empty text, a successful
readability result carries that text and those images. -/
theorem read_content_images {uj : List Char → List Char → List Char}
    {html : Html} {url : List Char} {r : ExtractResult}
    (h : extract_with_readability uj html url = some r)
    (hcm : (extract_content_with_image_markers uj html.region url).1 ≠ []) :
    r.content = (extract_content_with_image_markers uj html.region url).1 ∧
      r.images
        = (extract_content_with_image_markers uj html.region url).2 := by
  unfold extract_with_readability at h
  cases hrd : html.readData with
  | none => rw [hrd] at h; cases h
  | some rd =>
    rw [hrd] at h
    cases Option.some.inj h
    exact ⟨if_pos hcm, rfl⟩

/-- When `smart_extract` emits a document and the marker extraction
produced non-empty text, the document's content is the cleaned marker text
and its images are the marker images, on either strategy path. -/
theorem smart_extract_content_images
    {uj : List Char → List Char → List Char} {html : Html}
    {url now : List Char} {doc : Document}
    (hok : smart_extract uj (some html) url now = SmartResult.ok doc)
    (hcm : (extract_content_with_image_markers uj html.region url).1 ≠ []) :
    doc.content = clean_content
        (extract_content_with_image_markers uj html.region url).1 ∧
      doc.images
        = (extract_content_with_image_markers uj html.region url).2 := by
  rw [smart_extract_some] at hok
  cases hr0 : extract_with_trafilatura uj html url with
  | none =>
    rw [hr0] at hok
    cases hrd : extract_with_readability uj html url with
    | none => rw [hrd] at hok; cases hok
    | some r =>
      rw [hrd] at hok
      have hdoc : finalize r html url now = doc := SmartResult.ok.inj hok
      obtain ⟨hc, hi⟩ := read_content_images hrd hcm
      rw [← hdoc]
      constructor
      · show clean_content r.content = _
        rw [hc]
      · show r.images = _
        rw [hi]
  | some r0 =>
    rw [hr0] at hok
    by_cases hlt : r0.content.length < 100
    · rw [if_pos (show (decide (r0.content.length < 100)) = true from
        decide_eq_true hlt)] at hok
      cases hrd : extract_with_readability uj html url with
      | none => rw [hrd] at hok; cases hok
      | some r =>
        rw [hrd] at hok
        have hdoc : finalize r html url now = doc := SmartResult.ok.inj hok
        obtain ⟨hc, hi⟩ := read_content_images hrd hcm
        rw [← hdoc]
        constructor
        · show clean_content r.content = _
          rw [hc]
        · show r.images = _
          rw [hi]
    · rw [if_neg (show ¬(decide (r0.content.length < 100)) = true from
        fun hd => absurd (of_decide_eq_true hd) hlt)] at hok
      have hdoc : finalize r0 html url now = doc := SmartResult.ok.inj hok
      obtain ⟨hc, hi⟩ := traf_content_images hr0 hcm
      rw [← hdoc]
      constructor
      · show clean_content r0.content = _
        rw [hc]
      · show r0.images = _
        rw [hi]

/-- An id of the form `img_<n>` matches exactly one emitted image record
exactly when `n` is the enumeration index of an image with a resolvable
source. -/
theorem images_id_count (uj : List Char → List Char → List Char)
    (base : List Char) (region : List Node) (n : Nat) :
    (((processNodes uj base region 0).2).countP
        (fun im => decide (im.id = "img_".data ++ natChars n)) = 1)
      ↔ n ∈ srcIdxs region 0 := by
  have h1 : ((processNodes uj base region 0).2).countP
        (fun im => decide (im.id = "img_".data ++ natChars n))
      = (((processNodes uj base region 0).2).map (fun im => im.id)).countP
          (fun s => decide (s = "img_".data ++ natChars n)) := by
    rw [List.countP_map]
    rfl
  rw [h1, processNodes_ids uj base region 0, List.countP_map]
  have h2 : ((srcIdxs region 0).countP
        ((fun s => decide (s = "img_".data ++ natChars n)) ∘
          fun j => "img_".data ++ natChars j))
      = (srcIdxs region 0).countP (fun j => j == n) := by
    apply List.countP_congr
    intro j hj
    simp only [Function.comp_apply, decide_eq_true_eq, beq_iff_eq]
    constructor
    · intro he
      exact natChars_inj (List.append_cancel_left he)
    · intro he
      rw [he]
  rw [h2]
  have h3 : (srcIdxs region 0).countP (fun j => j == n)
      = List.count n (srcIdxs region 0) := rfl
  rw [h3]
  constructor
  · intro hc
    by_contra hn
    rw [List.count_eq_zero_of_not_mem hn] at hc
    cases hc
  · intro hn
    exact List.count_eq_one_of_mem (srcIdxs_nodup region 0) hn

end Crawler

namespace Crawler

/-- A page with one text node and one sourced image, readability
available. -/
def htmlC1 : Html :=
  { region := [Node.text "Hello world".data,
               Node.img { src := some "/a.png".data }],
    readData := some {} }

/-- The document `smart_extract` emits on `htmlC1`. -/
def docC1 : Document :=
  { title := [], content := "Hello world\n[IMAGE_PLACEHOLDER_0]".data,
    images := [{ url := "http://e.x/a.png".data, alt := [], width := none,
                 height := none, id := "img_0".data }],
    source := "readability".data, excerpt := [], author := [], date := [],
    url := "http://e.x".data, extraction_time := "now".data,
    content_length := 33, image_count := 1, publish_time := none }

theorem htmlC1_eval : smart_extract ujConcat (some htmlC1)
    "http://e.x".data "now".data = SmartResult.ok docC1 := by
  have hclean : clean_content "Hello world\n[IMAGE_PLACEHOLDER_0]".data
      = "Hello world\n[IMAGE_PLACEHOLDER_0]".data :=
    clean_content_of_fixed (by decide) (by decide) (by decide) (by decide)
      (by decide)
  have hstep : smart_extract ujConcat (some htmlC1) "http://e.x".data
      "now".data
      = SmartResult.ok (finalize
          { title := [], content := "Hello world\n[IMAGE_PLACEHOLDER_0]".data,
            images := [{ url := "http://e.x/a.png".data, alt := [],
                         width := none, height := none,
                         id := "img_0".data }],
            source := "readability".data, excerpt := [], author := [],
            date := [] }
          htmlC1 "http://e.x".data "now".data) := rfl
  rw [hstep]
  simp only [finalize, hclean]
  rfl

/-- A page whose region holds ten sourceless images followed by one
sourced image: the enumeration index of the sourced image is 10. -/
def htmlC1x : Html :=
  { region := List.replicate 10 (Node.img {})
      ++ [Node.img { src := some "/a.png".data }],
    readData := some {} }

/-- The document `smart_extract` emits on `htmlC1x`. -/
def doc10 : Document :=
  { title := [], content := "[IMAGE_PLACEHOLDER_10]".data,
    images := [{ url := "http://e.x/a.png".data, alt := [], width := none,
                 height := none, id := "img_10".data }],
    source := "readability".data, excerpt := [], author := [], date := [],
    url := "http://e.x".data, extraction_time := "now".data,
    content_length := 22, image_count := 1, publish_time := none }

theorem htmlC1x_eval : smart_extract ujConcat (some htmlC1x)
    "http://e.x".data "now".data = SmartResult.ok doc10 := by
  have hclean : clean_content "[IMAGE_PLACEHOLDER_10]".data
      = "[IMAGE_PLACEHOLDER_10]".data :=
    clean_content_of_fixed (by decide) (by decide) (by decide) (by decide)
      (by decide)
  have hstep : smart_extract ujConcat (some htmlC1x) "http://e.x".data
      "now".data
      = SmartResult.ok (finalize
          { title := [], content := "[IMAGE_PLACEHOLDER_10]".data,
            images := [{ url := "http://e.x/a.png".data, alt := [],
                         width := none, height := none,
                         id := "img_10".data }],
            source := "readability".data, excerpt := [], author := [],
            date := [] }
          htmlC1x "http://e.x".data "now".data) := rfl
  rw [hstep]
  simp only [finalize, hclean]
  rfl

end Crawler

namespace Crawler

/-- C1, counterexample to the claim as stated: the emitted image records
carry no `position` field (only `id = "img_<i>"`), and the shared index is
the enumeration index over all `<img>` elements, so marker indices need
not start at 0 nor be contiguous; moreover the unbracketed token
`IMAGE_PLACEHOLDER_1` occurs in the content (inside `IMAGE_PLACEHOLDER_10`)
while no image is co-indexed 1 — so the claimed set equality fails for the
spec's unbracketed token reading on a page with ten sourceless images
followed by one sourced image. -/
theorem C1_counterexample :
    smart_extract ujConcat (some htmlC1x) "http://e.x".data "now".data
        = SmartResult.ok doc10 ∧
      ("IMAGE_PLACEHOLDER_1".data <:+: doc10.content) ∧
      doc10.images.countP (fun im => decide (im.id = "img_1".data)) = 0 ∧
      doc10.images.countP (fun im => decide (im.id = "img_10".data)) = 1 :=
  ⟨htmlC1x_eval, by decide, by decide, by decide⟩

/-- C1 as amended: for a document emitted by `smart_extract` on a page
whose marker extraction yields non-empty text and whose text nodes contain
no `'['`: for every index `n`, the bracketed marker token
`[IMAGE_PLACEHOLDER_<n>]` occurs in the document's content exactly when
exactly one of the document's images has `id = "img_<n>"` (the records
carry no `position` field; the shared index is the enumeration index over
all `<img>` elements, and images without a resolvable source contribute
neither a marker nor a record). -/
theorem C1_marker_image_coindex (uj : List Char → List Char → List Char)
    (html : Html) (url now : List Char) (doc : Document)
    (hok : smart_extract uj (some html) url now = SmartResult.ok doc)
    (hcm : (extract_content_with_image_markers uj html.region url).1 ≠ [])
    (hbr : ∀ s, Node.text s ∈ html.region → '[' ∉ s) :
    ∀ n : Nat, (markerToken n <:+: doc.content ↔
      doc.images.countP
        (fun im => decide (im.id = "img_".data ++ natChars n)) = 1) := by
  intro n
  obtain ⟨hc, hi⟩ := smart_extract_content_images hok hcm
  rw [hc, hi]
  rw [marker_in_clean_content uj html.region url hbr hcm n]
  exact (images_id_count uj url html.region n).symm

/-- C1 instantiated on the one-text-node, one-sourced-image page: on
`htmlC1` the emitted document satisfies the amended co-indexing, and at
`n = 0` both sides of the equivalence hold concretely. -/
theorem C1_marker_image_coindex_witness :
    (smart_extract ujConcat (some htmlC1) "http://e.x".data "now".data
        = SmartResult.ok docC1 ∧
      (extract_content_with_image_markers ujConcat htmlC1.region
          "http://e.x".data).1 ≠ []) ∧
      (markerToken 0 <:+: docC1.content ↔
        docC1.images.countP
          (fun im => decide (im.id = "img_".data ++ natChars 0)) = 1) ∧
      markerToken 0 <:+: docC1.content := by
  have hbr : ∀ s, Node.text s ∈ htmlC1.region → '[' ∉ s := by
    intro s hs
    rcases List.mem_cons.mp hs with h1 | h1
    · injection h1 with h2
      subst h2
      decide
    · rcases List.mem_cons.mp h1 with h2 | h2
      · cases h2
      · cases h2
  refine ⟨⟨htmlC1_eval, by decide⟩, ?_, by decide⟩
  exact C1_marker_image_coindex ujConcat htmlC1 "http://e.x".data "now".data
    docC1 htmlC1_eval (by decide) hbr 0

/-- C4, counterexample to the claim as stated: the committed marker token
is the bracketed `[IMAGE_PLACEHOLDER_<n>]` (`f"[IMAGE_PLACEHOLDER_{i}]"`
in the source), not the bare `IMAGE_PLACEHOLDER_<n>`: in the emitted
document the occurrence of `IMAGE_PLACEHOLDER_0` is surrounded by square
brackets that are part of the inserted token. -/
theorem C4_counterexample :
    smart_extract ujConcat (some htmlC1) "http://e.x".data "now".data
        = SmartResult.ok docC1 ∧
      docC1.content
        = "Hello world\n".data
            ++ ('[' :: ("IMAGE_PLACEHOLDER_0".data ++ [']'])) ∧
      markerToken 0 ≠ "IMAGE_PLACEHOLDER_0".data :=
  ⟨htmlC1_eval, by decide, by decide⟩

/-- C4 as amended: in every document emitted by `smart_extract` whose
marker extraction yields non-empty text, every image record's id is
`img_<n>` for some index `n`, and the bracketed token
`[IMAGE_PLACEHOLDER_<n>]` — `"IMAGE_PLACEHOLDER_"` followed by the decimal
index, enclosed in square brackets — occurs in the document's content. -/
theorem C4_marker_wire_format (uj : List Char → List Char → List Char)
    (html : Html) (url now : List Char) (doc : Document)
    (hok : smart_extract uj (some html) url now = SmartResult.ok doc)
    (hcm : (extract_content_with_image_markers uj html.region url).1 ≠ []) :
    ∀ im ∈ doc.images, ∃ n : Nat,
      im.id = "img_".data ++ natChars n ∧ markerToken n <:+: doc.content := by
  obtain ⟨hc, hi⟩ := smart_extract_content_images hok hcm
  intro im him
  rw [hi] at him
  have him' : im ∈ (processNodes uj url html.region 0).2 := him
  have h1 : im.id
      ∈ ((processNodes uj url html.region 0).2).map (fun im => im.id) :=
    List.mem_map_of_mem _ him'
  rw [processNodes_ids uj url html.region 0] at h1
  obtain ⟨j, hj, hje⟩ := List.mem_map.mp h1
  refine ⟨j, hje.symm, ?_⟩
  rw [hc]
  exact srcIdx_marker_infix uj html.region url hcm j hj

/-- C4 instantiated on `htmlC1`: the emitted document's single image has
id `img_0` and the bracketed token `[IMAGE_PLACEHOLDER_0]` occurs in its
content. -/
theorem C4_marker_wire_format_witness :
    (smart_extract ujConcat (some htmlC1) "http://e.x".data "now".data
        = SmartResult.ok docC1 ∧
      (extract_content_with_image_markers ujConcat htmlC1.region
          "http://e.x".data).1 ≠ []) ∧
      ∀ im ∈ docC1.images, ∃ n : Nat,
        im.id = "img_".data ++ natChars n ∧
          markerToken n <:+: docC1.content :=
  ⟨⟨htmlC1_eval, by decide⟩,
    C4_marker_wire_format ujConcat htmlC1 "http://e.x".data "now".data
      docC1 htmlC1_eval (by decide)⟩

end Crawler
